import Mathlib

/-!
Verification of the StyleBuilder CSS shorthand expander.

This file gives a shallow embedding of `src/StyleBuilder.js` and proves the
specified properties of its expansion functions and of the recursive `build`
walk.

Modelling conventions:
* JS style objects are association lists built by successive key assignment
  (`setKV`), which replaces an existing binding in place and appends a fresh
  one, exactly like JS property assignment on a plain object.
* JS `value.split(sep)` for the single-character separators used by the
  source (`" "` and `"/"`) is `jsSplit`, which keeps empty fragments, like JS.
* JS `s.indexOf(u) > -1` is `jsIncludes s u` (substring occurrence).
* JS out-of-range array reads (`undefined`) only ever feed two sinks in the
  source: string concatenation (where JS stringifies `undefined` to
  `"undefined"`, modelled by a `getD _ "undefined"` default) and truthiness
  tests (where `undefined` is falsy like `""`, modelled by a `getD _ ""`
  default).
* A JS runtime `TypeError` thrown by the walk (for example on a `null` style
  value, whose `typeof` is `"object"` so the source evaluates `null.length`)
  is the poison value `Value.err`; it is never a legal input value.
* The dynamic `this[key]` dispatch of `build` is truthy not only on the
  eleven documented shorthand names but on every method of the class and on
  properties inherited from `Object.prototype`.  The model implements the
  documented shorthands plus `borderSide` (which the source then calls with
  an `undefined` side, stringified to `"undefined"` by its template
  literals).  The remaining truthy keys (`exoticTruthyKeys`) engage
  reflection whose behaviour is outside the modelled fragment; the model
  maps them to the poison value and no theorem below depends on them.
-/

set_option autoImplicit false

namespace StyleBuilder

/-- Splits a character list at every occurrence of the separator, keeping
empty fragments, like JS `String.prototype.split` with a one-character
separator. -/
def splitChar (c : Char) : List Char → List (List Char)
  | [] => [[]]
  | x :: xs =>
    let r := splitChar c xs
    if x = c then [] :: r
    else
      match r with
      | [] => [[x]]
      | h :: t => (x :: h) :: t

/-- JS `value.split(sep)` for a single-character separator. -/
def jsSplit (s : String) (sep : Char) : List String :=
  (splitChar sep s.data).map String.mk

/-- Does the pattern occur at the head of the list? -/
def hasPre : List Char → List Char → Bool
  | [], _ => true
  | _ :: _, [] => false
  | p :: ps, x :: xs => p == x && hasPre ps xs

/-- Does the pattern occur anywhere in the list? -/
def occursIn (pat : List Char) : List Char → Bool
  | [] => pat.isEmpty
  | x :: xs => hasPre pat (x :: xs) || occursIn pat xs

/-- JS `s.indexOf(u) > -1`: the substring `u` occurs in `s`. -/
def jsIncludes (s u : String) : Bool :=
  occursIn u.data s.data

/-- JS truthiness of the strings the source tests (`undefined` never reaches
these tests in the model: out-of-range reads are defaulted to `""`, which is
falsy exactly like `undefined`). -/
def truthyStr (s : String) : Bool :=
  s != ""

/-- JS property assignment `o[k] = v` on a plain object: replaces the
existing binding in place, otherwise appends the new binding.  (JS object
keys are unique, so replacing the first matching binding is exact.) -/
def setKV {β : Type} : List (String × β) → String → β → List (String × β)
  | [], k, v => [(k, v)]
  | p :: rest, k, v =>
    if p.1 == k then (k, v) :: rest else p :: setKV rest k v

/-- JS `Object.assign(acc, es)`: assigns every binding of `es` into `acc` in
order. -/
def assignEntries {β : Type} (acc es : List (String × β)) : List (String × β) :=
  es.foldl (fun a p => setKV a p.1 p.2) acc

/-- Lookup of a key in an association list (first binding wins; lists built
by `setKV` have unique keys). -/
def lookupKV {β : Type} (o : List (String × β)) (k : String) : Option β :=
  (o.find? (fun p => p.1 == k)).map (fun p => p.2)

/-- Keys of an association list. -/
def keysOf {β : Type} (o : List (String × β)) : List String :=
  o.map (fun p => p.1)

/-- The source's fixed list of CSS border-style keywords. -/
def _borderStyles : List String :=
  ["none", "hidden", "dotted", "dashed", "solid", "double", "groove", "ridge", "inset", "outset"]

/-- The source's fixed list of recognised unit markers. -/
def _units : List String := ["px", "em", "pt", "%"]

/-- `_explodeToFour` from the source: splits on single spaces and stretches
1/2/3 tokens to four slots; any other token count is passed through raw. -/
def _explodeToFour (value : String) : List String :=
  let valueArray := jsSplit value ' '
  if valueArray.length = 1 then
    [0, 1, 2, 3].map (fun _ => valueArray.getD 0 "")
  else if valueArray.length = 2 then
    [0, 1, 2, 3].map (fun i => valueArray.getD (i % 2) "")
  else if valueArray.length = 3 then
    [0, 1, 2, 3].map (fun i => valueArray.getD (i % 3 + i / 3) "")
  else
    valueArray

/-- `_applyFour` from the source: four successive key assignments on a fresh
object.  Every caller passes an array of length at least four, so the
`getD` defaults are never used by the source's call sites. -/
def _applyFour (valueArr : List String) (pre suf : String) : List (String × String) :=
  setKV (setKV (setKV (setKV []
    (pre ++ "Top" ++ suf) (valueArr.getD 0 ""))
    (pre ++ "Right" ++ suf) (valueArr.getD 1 ""))
    (pre ++ "Bottom" ++ suf) (valueArr.getD 2 ""))
    (pre ++ "Left" ++ suf) (valueArr.getD 3 "")

/-- `_applyFourCorner` from the source. -/
def _applyFourCorner (valueArr : List String) (pre suf : String) : List (String × String) :=
  setKV (setKV (setKV (setKV []
    (pre ++ "TopLeft" ++ suf) (valueArr.getD 0 ""))
    (pre ++ "TopRight" ++ suf) (valueArr.getD 1 ""))
    (pre ++ "BottomRight" ++ suf) (valueArr.getD 2 ""))
    (pre ++ "BottomLeft" ++ suf) (valueArr.getD 3 "")

/-- `applyPX` from the source: appends `"px"` to a token in which none of the
unit markers occurs. -/
def applyPX (values : List String) : List String :=
  values.map (fun v =>
    if (_units.filter (fun u => jsIncludes v u)).length = 0 then v ++ "px"
    else v)

/-- `margin` from the source (the JS call passes no suffix, so the suffix
defaults to the empty string). -/
def margin (value : String) : List (String × String) :=
  _applyFour (_explodeToFour value) "margin" ""

/-- `padding` from the source. -/
def padding (value : String) : List (String × String) :=
  _applyFour (_explodeToFour value) "padding" ""

/-- `borderRadius` from the source: splits the two radius axes on `"/"`, and
when a second axis exists joins the slots pairwise with a space.  A
missing second-axis slot (halves of different lengths) is JS `undefined`,
which string concatenation renders as `"undefined"`. -/
def borderRadius (value : String) : List (String × String) :=
  let partOne := _explodeToFour ((jsSplit value '/').getD 0 "")
  let joined :=
    if jsIncludes value "/" then
      let partTwo := _explodeToFour ((jsSplit value '/').getD 1 "")
      partOne.mapIdx (fun index v => v ++ " " ++ partTwo.getD index "undefined")
    else partOne
  _applyFourCorner joined "border" "Radius"

/-- `borderStyle` from the source. -/
def borderStyle (value : String) : List (String × String) :=
  _applyFour (_explodeToFour value) "border" "Style"

/-- `borderColor` from the source. -/
def borderColor (value : String) : List (String × String) :=
  _applyFour (_explodeToFour value) "border" "Color"

/-- `borderWidth` from the source. -/
def borderWidth (value : String) : List (String × String) :=
  _applyFour (_explodeToFour value) "border" "Width"

/-- `borderSide` from the source, statement by statement: the keyword branch;
then the one-token branch (which sets Width and the two `"initial"`
defaults); then the three positional truthiness-guarded assignments, which
in the one-token case re-assign Width with the same value. -/
def borderSide (value side : String) : List (String × String) :=
  if _borderStyles.contains value then
    setKV (setKV (setKV []
      ("border" ++ side ++ "Width") "initial")
      ("border" ++ side ++ "Style") value)
      ("border" ++ side ++ "Color") "initial"
  else
    let values := jsSplit value ' '
    let styles0 : List (String × String) :=
      if values.length = 1 then
        setKV (setKV (setKV []
          ("border" ++ side ++ "Width") (values.getD 0 ""))
          ("border" ++ side ++ "Style") "initial")
          ("border" ++ side ++ "Color") "initial"
      else []
    let styles1 :=
      if truthyStr (values.getD 0 "") then
        setKV styles0 ("border" ++ side ++ "Width") (values.getD 0 "")
      else styles0
    let styles2 :=
      if truthyStr (values.getD 1 "") then
        setKV styles1 ("border" ++ side ++ "Style") (values.getD 1 "")
      else styles1
    if truthyStr (values.getD 2 "") then
      setKV styles2 ("border" ++ side ++ "Color") (values.getD 2 "")
    else styles2

/-- `borderLeft` from the source. -/
def borderLeft (value : String) : List (String × String) :=
  borderSide value "Left"

/-- `borderRight` from the source. -/
def borderRight (value : String) : List (String × String) :=
  borderSide value "Right"

/-- `borderTop` from the source. -/
def borderTop (value : String) : List (String × String) :=
  borderSide value "Top"

/-- `borderBottom` from the source. -/
def borderBottom (value : String) : List (String × String) :=
  borderSide value "Bottom"

/-- `border` from the source: `Object.assign({}, Left, Right, Top, Bottom)`. -/
def border (value : String) : List (String × String) :=
  assignEntries (assignEntries (assignEntries (assignEntries []
    (borderSide value "Left")) (borderSide value "Right"))
    (borderSide value "Top")) (borderSide value "Bottom")

/-- A JS style value, as walked by `build`.  The type parameter is the type
of the (opaque) arguments that callable style values receive.  `err` is not
an input value: it is the model of a thrown `TypeError`. -/
inductive Value (α : Type) : Type where
  | str : String → Value α
  | num : Int → Value α
  | bool : Bool → Value α
  | null : Value α
  | err : Value α
  | fn : (List α → Value α) → Value α
  | arr : List (Value α) → Value α
  | obj : List (String × Value α) → Value α

/-- Lifts a string-valued expansion object into style-value entries. -/
def strEntries {α : Type} (es : List (String × String)) : List (String × Value α) :=
  es.map (fun p => (p.1, Value.str p.2))

/-- The `this[key]` method dispatch of `build`, restricted to the keys whose
behaviour the model implements: the eleven documented shorthand expanders,
plus `borderSide`, which is also a truthy method of the class and which the
source then calls with an `undefined` side (stringified to `"undefined"` by
the template literals of `borderSide`). -/
def methodExpander (k : String) : Option (String → List (String × String)) :=
  match k with
  | "margin" => some margin
  | "padding" => some padding
  | "borderRadius" => some borderRadius
  | "borderStyle" => some borderStyle
  | "borderColor" => some borderColor
  | "borderWidth" => some borderWidth
  | "borderLeft" => some borderLeft
  | "borderRight" => some borderRight
  | "borderTop" => some borderTop
  | "borderBottom" => some borderBottom
  | "border" => some border
  | "borderSide" => some (fun v => borderSide v "undefined")
  | _ => none

/-- The remaining keys on which `this[key]` is truthy in the source (class
methods and properties inherited from `Object.prototype`).  Dispatching on
them engages JS reflection outside the modelled fragment (several of them do
throw: `constructor`, `applyPX`, `__proto__`); the model uniformly maps them
to the poison value, and no theorem in this file depends on their
behaviour. -/
def exoticTruthyKeys : List String :=
  ["_explodeToFour", "_applyFour", "_applyFourCorner", "applyPX", "build",
   "constructor", "hasOwnProperty", "isPrototypeOf", "propertyIsEnumerable",
   "toLocaleString", "toString", "valueOf",
   "__defineGetter__", "__defineSetter__", "__lookupGetter__", "__lookupSetter__",
   "__proto__"]

/-- JS `Object.keys` iteration over a primitive string yields its characters
as one-character strings (`build` reaches this because a string has a
`length`, so it takes the array branch). -/
def strChars {α : Type} (s : String) : List (Value α) :=
  s.data.map (fun c => Value.str (String.singleton c))

mutual

/-- `build` from the source.  The source first distinguishes array-like
values (`styles.length !== undefined`, which is also true of strings and
functions) from plain objects, then walks the keys.  A `null` input throws
at the `value.length` check (`typeof null` is `"object"`), modelled by the
poison value. -/
def build {α : Type} : Value α → Value α
  | .null => .err
  | .err => .err
  | .str s => .arr (strChars s)
  | .num _ => .obj []
  | .bool _ => .obj []
  | .fn _ => .arr []
  | .arr l =>
    match walkList l with
    | some l' => .arr l'
    | none => .err
  | .obj m =>
    match buildEntries m [] with
    | some o => .obj o
    | none => .err

/-- The loop of `build` over a top-level array: index keys are never truthy
on `this`, so every element goes through the non-dispatch loop body
(`walkElem`); a thrown error aborts the whole walk. -/
def walkList {α : Type} : List (Value α) → Option (List (Value α))
  | [] => some []
  | v :: vs =>
    match walkElem v, walkList vs with
    | .err, _ => none
    | _, none => none
    | w, some ws => some (w :: ws)

/-- The source's `value.map(v => this.build(v))` over a nested array, with a
thrown error aborting the whole walk. -/
def buildList {α : Type} : List (Value α) → Option (List (Value α))
  | [] => some []
  | v :: vs =>
    match build v, buildList vs with
    | .err, _ => none
    | _, none => none
    | w, some ws => some (w :: ws)

/-- The loop body of `build` for a value whose key is not truthy on `this`:
strings, numbers and booleans are copied, nested arrays map `build` over
their elements, nested objects recurse through `build`, callables are
wrapped into `args => build (value args)`, and a `null` value throws. -/
def walkElem {α : Type} : Value α → Value α
  | .str s => .str s
  | .num n => .num n
  | .bool b => .bool b
  | .null => .err
  | .err => .err
  | .fn f => .fn (fun args => build (f args))
  | .arr l =>
    match buildList l with
    | some l' => .arr l'
    | none => .err
  | .obj m =>
    match buildEntries m [] with
    | some o => .obj o
    | none => .err

/-- The key loop of `build` over a plain object: a string value whose key is
a truthy method dispatches (`Object.assign` of the expansion into the
accumulated output), a string value with a falsy key is copied, and every
other value goes through the non-dispatch loop body. -/
def buildEntries {α : Type} : List (String × Value α) → List (String × Value α) → Option (List (String × Value α))
  | [], acc => some acc
  | (k, v) :: rest, acc =>
    match v with
    | .str s =>
      match methodExpander k with
      | some e => buildEntries rest (assignEntries acc (strEntries (e s)))
      | none =>
        if exoticTruthyKeys.contains k then none
        else buildEntries rest (setKV acc k (.str s))
    | _ =>
      match walkElem v with
      | .err => none
      | w => buildEntries rest (setKV acc k w)

end

/-- Modelled from the spec: the fixed set of known shorthand property names
that §9 of the spec instructs an implementer to use as the explicit dispatch
domain in place of the source's dynamic `this[key]` lookup.  It is the
reference point for the dispatch claims; the source's actual truthy domain
is strictly larger. -/
def specShorthandKeys : List String :=
  ["margin", "padding", "borderRadius", "borderStyle", "borderColor",
   "borderWidth", "borderLeft", "borderRight", "borderTop", "borderBottom",
   "border"]

/-- Fixed superset of the keys an expander dispatched at key `k` can write:
the walk of an entry `(k, v)` only ever writes these keys (for a dispatching
string value) or `k` itself (for every other value). -/
def expKeysOf (k : String) : List String :=
  match k with
  | "margin" => ["marginTop", "marginRight", "marginBottom", "marginLeft"]
  | "padding" => ["paddingTop", "paddingRight", "paddingBottom", "paddingLeft"]
  | "borderRadius" =>
    ["borderTopLeftRadius", "borderTopRightRadius",
     "borderBottomRightRadius", "borderBottomLeftRadius"]
  | "borderStyle" =>
    ["borderTopStyle", "borderRightStyle", "borderBottomStyle", "borderLeftStyle"]
  | "borderColor" =>
    ["borderTopColor", "borderRightColor", "borderBottomColor", "borderLeftColor"]
  | "borderWidth" =>
    ["borderTopWidth", "borderRightWidth", "borderBottomWidth", "borderLeftWidth"]
  | "borderLeft" => ["borderLeftWidth", "borderLeftStyle", "borderLeftColor"]
  | "borderRight" => ["borderRightWidth", "borderRightStyle", "borderRightColor"]
  | "borderTop" => ["borderTopWidth", "borderTopStyle", "borderTopColor"]
  | "borderBottom" => ["borderBottomWidth", "borderBottomStyle", "borderBottomColor"]
  | "border" =>
    ["borderLeftWidth", "borderLeftStyle", "borderLeftColor",
     "borderRightWidth", "borderRightStyle", "borderRightColor",
     "borderTopWidth", "borderTopStyle", "borderTopColor",
     "borderBottomWidth", "borderBottomStyle", "borderBottomColor"]
  | "borderSide" =>
    ["borderundefinedWidth", "borderundefinedStyle", "borderundefinedColor"]
  | _ => [k]

/-- The keys the key loop of `build` can write while processing one entry. -/
def entryWrites {α : Type} (e : String × Value α) : List String :=
  match e.2 with
  | Value.str _ =>
    match methodExpander e.1 with
    | some _ => expKeysOf e.1
    | none => [e.1]
  | _ => [e.1]

/-- An entry that the key loop of `build` reproduces verbatim: its value is
fixed by the element walk and is not an error, and if the value is a string
its key is not truthy on `this`.  Every entry of an object produced by
`build` has this shape. -/
def stableEntry {α : Type} (e : String × Value α) : Prop :=
  (∀ s, e.2 = Value.str s → methodExpander e.1 = none ∧ exoticTruthyKeys.contains e.1 = false) ∧
  walkElem e.2 = e.2 ∧ e.2 ≠ Value.err

/-! ## Toolkit: strings, key assignment and lookup -/

theorem strApp_left_cancel {a b c : String} (h : a ++ b = a ++ c) : b = c := by
  apply String.ext
  have h' := congrArg String.data h
  simp only [String.data_append] at h'
  exact List.append_cancel_left h'

theorem strApp_right_cancel {a b c : String} (h : a ++ c = b ++ c) : a = b := by
  apply String.ext
  have h' := congrArg String.data h
  simp only [String.data_append] at h'
  exact List.append_cancel_right h'

theorem strApp_ne_right (a : String) {x y : String} (h : x ≠ y) : a ++ x ≠ a ++ y :=
  fun he => h (strApp_left_cancel he)

section KV

variable {β : Type}

theorem keysOf_mem_iff {o : List (String × β)} {k : String} :
    k ∈ keysOf o ↔ ∃ p ∈ o, p.1 = k := by
  simp [keysOf, List.mem_map, eq_comm]

theorem setKV_of_not_mem {o : List (String × β)} {k : String} (v : β) (h : k ∉ keysOf o) :
    setKV o k v = o ++ [(k, v)] := by
  induction o with
  | nil => rfl
  | cons p rest ih =>
    have hk : ¬(p.1 == k) = true := by
      rw [beq_iff_eq]
      intro he
      exact h (keysOf_mem_iff.mpr ⟨p, List.mem_cons_self _ _, he⟩)
    have hrest : k ∉ keysOf rest := by
      intro hm
      rcases keysOf_mem_iff.mp hm with ⟨q, hq, hqe⟩
      exact h (keysOf_mem_iff.mpr ⟨q, List.mem_cons_of_mem _ hq, hqe⟩)
    simp [setKV, hk, ih hrest]

theorem setKV_cons_hit {p : String × β} {rest : List (String × β)} {k : String} (v : β)
    (hk : (p.1 == k) = true) : setKV (p :: rest) k v = (k, v) :: rest := by
  simp [setKV, hk]

theorem setKV_cons_miss {p : String × β} {rest : List (String × β)} {k : String} (v : β)
    (hk : ¬(p.1 == k) = true) : setKV (p :: rest) k v = p :: setKV rest k v := by
  simp [setKV, hk]

theorem mem_setKV {o : List (String × β)} {k : String} {v : β} {e : String × β}
    (h : e ∈ setKV o k v) : e ∈ o ∨ e = (k, v) := by
  induction o with
  | nil => right; simpa [setKV] using h
  | cons p rest ih =>
    by_cases hk : (p.1 == k) = true
    · rw [setKV_cons_hit v hk] at h
      rcases List.mem_cons.mp h with h' | h'
      · exact Or.inr h'
      · exact Or.inl (List.mem_cons_of_mem _ h')
    · rw [setKV_cons_miss v hk] at h
      rcases List.mem_cons.mp h with h' | h'
      · exact Or.inl (h' ▸ List.mem_cons_self _ _)
      · rcases ih h' with h'' | h''
        · exact Or.inl (List.mem_cons_of_mem _ h'')
        · exact Or.inr h''

theorem keysOf_setKV_sub {o : List (String × β)} {k k' : String} {v : β}
    (h : k' ∈ keysOf (setKV o k v)) : k' ∈ keysOf o ∨ k' = k := by
  rcases keysOf_mem_iff.mp h with ⟨p, hp, hpk⟩
  rcases mem_setKV hp with h' | h'
  · exact Or.inl (keysOf_mem_iff.mpr ⟨p, h', hpk⟩)
  · right; rw [h'] at hpk; exact hpk.symm

theorem keysOf_cons (p : String × β) (rest : List (String × β)) :
    keysOf (p :: rest) = p.1 :: keysOf rest := rfl

theorem keysOf_setKV {o : List (String × β)} {k : String} (v : β) :
    keysOf (setKV o k v) = if k ∈ keysOf o then keysOf o else keysOf o ++ [k] := by
  induction o with
  | nil => simp [setKV, keysOf]
  | cons p rest ih =>
    by_cases hk : (p.1 == k) = true
    · have he := beq_iff_eq.mp hk
      have hmem : k ∈ keysOf (p :: rest) := by
        rw [keysOf_cons]
        exact List.mem_cons.mpr (Or.inl he.symm)
      rw [setKV_cons_hit v hk, if_pos hmem, keysOf_cons, keysOf_cons, he]
    · have hne : p.1 ≠ k := fun he => hk (beq_iff_eq.mpr he)
      rw [setKV_cons_miss v hk, keysOf_cons, ih]
      by_cases hmem : k ∈ keysOf rest
      · have hm2 : k ∈ keysOf (p :: rest) := by
          rw [keysOf_cons]
          exact List.mem_cons.mpr (Or.inr hmem)
        rw [if_pos hmem, if_pos hm2, keysOf_cons]
      · have hm2 : k ∉ keysOf (p :: rest) := by
          rw [keysOf_cons]
          intro hin
          rcases List.mem_cons.mp hin with h' | h'
          · exact hne h'.symm
          · exact hmem h'
        rw [if_neg hmem, if_neg hm2, keysOf_cons, List.cons_append]

theorem nodup_keysOf_setKV {o : List (String × β)} {k : String} (v : β)
    (h : (keysOf o).Nodup) : (keysOf (setKV o k v)).Nodup := by
  rw [keysOf_setKV]
  by_cases hmem : k ∈ keysOf o
  · simpa [hmem] using h
  · simp [hmem, List.nodup_append, h]

theorem lookupKV_nil (k' : String) : lookupKV ([] : List (String × β)) k' = none := rfl

theorem lookupKV_cons (p : String × β) (rest : List (String × β)) (k' : String) :
    lookupKV (p :: rest) k' = if (p.1 == k') = true then some p.2 else lookupKV rest k' := by
  unfold lookupKV
  rw [List.find?]
  cases h : (p.1 == k') <;> simp [h]

theorem lookupKV_setKV (o : List (String × β)) (k : String) (v : β) (k' : String) :
    lookupKV (setKV o k v) k' = if k' = k then some v else lookupKV o k' := by
  induction o with
  | nil =>
    by_cases h : k' = k
    · simp [setKV, lookupKV_cons, lookupKV_nil, h]
    · have hb : (k == k') = false := beq_eq_false_iff_ne.mpr (fun he => h he.symm)
      simp [setKV, lookupKV_cons, lookupKV_nil, hb, h]
  | cons p rest ih =>
    by_cases hk : (p.1 == k) = true
    · have he := beq_iff_eq.mp hk
      rw [setKV_cons_hit v hk, lookupKV_cons, lookupKV_cons]
      by_cases h' : k' = k
      · subst h'
        simp
      · have h1 : (k == k') = false := beq_eq_false_iff_ne.mpr (fun hh => h' hh.symm)
        have h2 : (p.1 == k') = false := by rw [he]; exact h1
        simp [h1, h2, h']
    · rw [setKV_cons_miss v hk, lookupKV_cons, lookupKV_cons]
      by_cases h2 : (p.1 == k') = true
      · have hne : ¬k' = k := fun he => hk (he ▸ h2)
        simp [h2, hne]
      · simp [h2, ih]

end KV

theorem keysOf_append {β : Type} (a b : List (String × β)) :
    keysOf (a ++ b) = keysOf a ++ keysOf b :=
  List.map_append _ a b

theorem assignEntries_cons {β : Type} (acc : List (String × β)) (p : String × β)
    (es : List (String × β)) :
    assignEntries acc (p :: es) = assignEntries (setKV acc p.1 p.2) es := rfl

theorem lookupKV_assign_not_mem {β : Type} {acc es : List (String × β)} {k : String}
    (h : k ∉ keysOf es) :
    lookupKV (assignEntries acc es) k = lookupKV acc k := by
  induction es generalizing acc with
  | nil => rfl
  | cons p rest ih =>
    have hk : k ∉ keysOf rest := by
      intro hm
      exact h (by rw [keysOf_cons]; exact List.mem_cons_of_mem _ hm)
    have hne : ¬k = p.1 := by
      intro he
      exact h (by rw [keysOf_cons]; exact List.mem_cons.mpr (Or.inl he))
    rw [assignEntries_cons, ih hk, lookupKV_setKV, if_neg hne]

theorem lookupKV_assign_mem {β : Type} {acc es : List (String × β)} {k : String} {v : β}
    (hnd : (keysOf es).Nodup) (h : lookupKV es k = some v) :
    lookupKV (assignEntries acc es) k = some v := by
  induction es generalizing acc with
  | nil => exact absurd h (by simp [lookupKV_nil])
  | cons p rest ih =>
    rw [keysOf_cons, List.nodup_cons] at hnd
    rw [lookupKV_cons] at h
    by_cases hp : (p.1 == k) = true
    · rw [if_pos hp] at h
      have he := beq_iff_eq.mp hp
      have hk : k ∉ keysOf rest := he ▸ hnd.1
      rw [assignEntries_cons, lookupKV_assign_not_mem hk, lookupKV_setKV, if_pos he.symm]
      exact h
    · rw [if_neg hp] at h
      rw [assignEntries_cons]
      exact ih hnd.2 h

theorem assignEntries_fresh_append {β : Type} {es : List (String × β)}
    (acc : List (String × β)) (hnd : (keysOf es).Nodup)
    (hdisj : ∀ kk ∈ keysOf es, kk ∉ keysOf acc) :
    assignEntries acc es = acc ++ es := by
  induction es generalizing acc with
  | nil => simp [assignEntries]
  | cons p rest ih =>
    rw [keysOf_cons, List.nodup_cons] at hnd
    have hp : p.1 ∉ keysOf acc :=
      hdisj p.1 (by rw [keysOf_cons]; exact List.mem_cons_self _ _)
    have hdisj' : ∀ kk ∈ keysOf rest, kk ∉ keysOf (acc ++ [(p.1, p.2)]) := by
      intro kk hkk
      rw [keysOf_append]
      intro hmem
      rcases List.mem_append.mp hmem with h' | h'
      · exact hdisj kk (by rw [keysOf_cons]; exact List.mem_cons_of_mem _ hkk) h'
      · have : kk = p.1 := by simpa [keysOf] using h'
        exact hnd.1 (this ▸ hkk)
    calc assignEntries acc (p :: rest)
        = assignEntries (acc ++ [(p.1, p.2)]) rest := by
          rw [assignEntries_cons, setKV_of_not_mem _ hp]
      _ = (acc ++ [(p.1, p.2)]) ++ rest := ih _ hnd.2 hdisj'
      _ = acc ++ p :: rest := by simp

theorem keysOf_strEntries {α : Type} (es : List (String × String)) :
    keysOf (@strEntries α es) = keysOf es := by
  simp [keysOf, strEntries, List.map_map]

theorem lookupKV_strEntries {α : Type} (es : List (String × String)) (k : String) :
    lookupKV (@strEntries α es) k = (lookupKV es k).map Value.str := by
  induction es with
  | nil => rfl
  | cons p rest ih =>
    rw [show @strEntries α (p :: rest) = (p.1, Value.str p.2) :: strEntries rest from rfl,
      lookupKV_cons, lookupKV_cons]
    by_cases hp : (p.1 == k) = true
    · simp [hp]
    · simp [hp, ih]

/-! ## Toolkit: splitting and substring occurrence -/

theorem splitChar_length_pos (c : Char) (l : List Char) : 1 ≤ (splitChar c l).length := by
  induction l with
  | nil => simp [splitChar]
  | cons x xs ih =>
    by_cases hx : x = c
    · simp [splitChar, hx]
    · rw [splitChar, if_neg hx]
      rcases he : splitChar c xs with _ | ⟨hd, tl⟩
      · rw [he] at ih
        simp at ih
      · simp

theorem splitChar_single {c : Char} {l m : List Char} (h : splitChar c l = [m]) : m = l := by
  induction l generalizing m with
  | nil => simpa [splitChar] using h.symm
  | cons x xs ih =>
    by_cases hx : x = c
    · rw [splitChar, if_pos hx] at h
      have hlen := congrArg List.length h
      have hp := splitChar_length_pos c xs
      simp only [List.length_cons, List.length_singleton, List.length_nil] at hlen
      omega
    · rw [splitChar, if_neg hx] at h
      rcases he : splitChar c xs with _ | ⟨hd, tl⟩
      · exact absurd (he ▸ splitChar_length_pos c xs) (by simp [he])
      · rw [he] at h
        simp only at h
        have h1 := List.cons.injEq _ _ _ _ ▸ h
        rcases List.cons.inj h with ⟨hm, htl⟩
        subst htl
        have : hd = xs := ih (by rw [he])
        rw [← hm, this]

theorem mem_of_splitChar_two {c : Char} {l : List Char}
    (h : 2 ≤ (splitChar c l).length) : c ∈ l := by
  induction l with
  | nil => simp [splitChar] at h
  | cons x xs ih =>
    by_cases hx : x = c
    · exact hx ▸ List.mem_cons_self _ _
    · rw [splitChar, if_neg hx] at h
      rcases he : splitChar c xs with _ | ⟨hd, tl⟩
      · exact absurd (he ▸ splitChar_length_pos c xs) (by simp [he])
      · rw [he] at h
        simp only [List.length_cons] at h
        refine List.mem_cons_of_mem _ (ih ?_)
        rw [he]
        simpa using h

theorem splitChar_two_of_mem {c : Char} {l : List Char} (h : c ∈ l) :
    2 ≤ (splitChar c l).length := by
  induction l with
  | nil => cases h
  | cons x xs ih =>
    by_cases hx : x = c
    · rw [splitChar, if_pos hx]
      have := splitChar_length_pos c xs
      simp
      omega
    · have hmem : c ∈ xs := by
        rcases List.mem_cons.mp h with h' | h'
        · exact absurd h'.symm hx
        · exact h'
      rw [splitChar, if_neg hx]
      have h2 := ih hmem
      rcases he : splitChar c xs with _ | ⟨hd, tl⟩
      · exact absurd (he ▸ splitChar_length_pos c xs) (by simp [he])
      · rw [he] at h2
        simpa using h2

theorem occursIn_single (c : Char) (l : List Char) :
    occursIn [c] l = true ↔ c ∈ l := by
  induction l with
  | nil => simp [occursIn, List.isEmpty]
  | cons x xs ih =>
    rw [occursIn]
    constructor
    · intro h
      rcases Bool.or_eq_true_iff.mp h with h' | h'
      · rw [hasPre] at h'
        have := Bool.and_eq_true_iff.mp h'
        exact List.mem_cons.mpr (Or.inl (beq_iff_eq.mp this.1))
      · exact List.mem_cons_of_mem _ (ih.mp h')
    · intro h
      rcases List.mem_cons.mp h with h' | h'
      · rw [hasPre, h']
        simp [hasPre]
      · exact Bool.or_eq_true_iff.mpr (Or.inr (ih.mpr h'))

theorem jsSplit_length_pos (s : String) (c : Char) : 1 ≤ (jsSplit s c).length := by
  rw [jsSplit, List.length_map]
  exact splitChar_length_pos c s.data

theorem jsSplit_singleton {s w : String} {c : Char} (h : jsSplit s c = [w]) : w = s := by
  rw [jsSplit] at h
  rcases he : splitChar c s.data with _ | ⟨hd, tl⟩
  · exact absurd (he ▸ splitChar_length_pos c s.data) (by simp [he])
  · rw [he] at h
    simp only [List.map_cons] at h
    rcases List.cons.inj h with ⟨hw, htl⟩
    have htl' : tl = [] := by simpa using congrArg List.length htl
    subst htl'
    have : hd = s.data := splitChar_single (by rw [he])
    rw [← hw, this]

theorem jsIncludes_of_jsSplit_two (s : String) (c : Char)
    (h : 2 ≤ (jsSplit s c).length) : jsIncludes s (String.singleton c) = true := by
  rw [jsIncludes]
  rw [jsSplit, List.length_map] at h
  have : c ∈ s.data := mem_of_splitChar_two h
  have hd : (String.singleton c).data = [c] := rfl
  rw [hd]
  exact (occursIn_single c s.data).mpr this

theorem jsIncludes_false_of_jsSplit_one (s : String) (c : Char)
    (h : (jsSplit s c).length = 1) : jsIncludes s (String.singleton c) = false := by
  rw [jsIncludes]
  have hd : (String.singleton c).data = [c] := rfl
  rw [hd]
  rcases hb : occursIn [c] s.data with _ | _
  · rfl
  · exfalso
    have hmem := (occursIn_single c s.data).mp hb
    have h2 := splitChar_two_of_mem hmem
    rw [jsSplit, List.length_map] at h
    omega

/-! ## Three fresh assignments on an empty object -/

theorem setKV3_fresh {β : Type} (k1 k2 k3 : String) (v1 v2 v3 : β)
    (h12 : k1 ≠ k2) (h13 : k1 ≠ k3) (h23 : k2 ≠ k3) :
    setKV (setKV (setKV [] k1 v1) k2 v2) k3 v3 = [(k1, v1), (k2, v2), (k3, v3)] := by
  have b12 : ¬(k1 == k2) = true := by simp only [beq_iff_eq]; exact h12
  have b13 : ¬(k1 == k3) = true := by simp only [beq_iff_eq]; exact h13
  have b23 : ¬(k2 == k3) = true := by simp only [beq_iff_eq]; exact h23
  rw [show setKV ([] : List (String × β)) k1 v1 = [(k1, v1)] from rfl,
    setKV_cons_miss _ b12,
    show setKV ([] : List (String × β)) k2 v2 = [(k2, v2)] from rfl,
    setKV_cons_miss _ b13, setKV_cons_miss _ b23]
  rfl

/-! ## Claim C1: the four-slot exploder -/

/-- C1: `_explodeToFour` splits the value on spaces and returns `[v,v,v,v]`
for one token, `[a,b,a,b]` for two tokens, `[a,b,c,b]` for three tokens
(Top = t0, Right/Left = t1, Bottom = t2), the tokens verbatim in
Top/Right/Bottom/Left order for four tokens, and the raw token array
unchanged for more than four tokens; it is total and never signals an
error. -/
theorem claim_C1 (value a b c d : String) (rest : List String) :
    (jsSplit value ' ' = [a] → _explodeToFour value = [a, a, a, a]) ∧
    (jsSplit value ' ' = [a, b] → _explodeToFour value = [a, b, a, b]) ∧
    (jsSplit value ' ' = [a, b, c] → _explodeToFour value = [a, b, c, b]) ∧
    (jsSplit value ' ' = [a, b, c, d] → _explodeToFour value = [a, b, c, d]) ∧
    (jsSplit value ' ' = a :: b :: c :: d :: rest →
      _explodeToFour value = a :: b :: c :: d :: rest) := by
  refine ⟨fun h => ?_, fun h => ?_, fun h => ?_, fun h => ?_, fun h => ?_⟩
  all_goals simp only [_explodeToFour, h, List.length_cons, List.length_nil,
    List.map_cons, List.map_nil, List.getD]
  · norm_num
  · norm_num
  · norm_num
  · norm_num
  · rw [if_neg (by omega), if_neg (by omega), if_neg (by omega)]

/-- Witness for C1 at concrete one-, two-, three-, four- and five-token
inputs. -/
theorem claim_C1_witness :
    _explodeToFour "x" = ["x", "x", "x", "x"] ∧
    _explodeToFour "x y" = ["x", "y", "x", "y"] ∧
    _explodeToFour "x y z" = ["x", "y", "z", "y"] ∧
    _explodeToFour "w x y z" = ["w", "x", "y", "z"] ∧
    _explodeToFour "v w x y z" = ["v", "w", "x", "y", "z"] :=
  ⟨(claim_C1 "x" "x" "" "" "" []).1 (by decide),
   (claim_C1 "x y" "x" "y" "" "" []).2.1 (by decide),
   (claim_C1 "x y z" "x" "y" "z" "" []).2.2.1 (by decide),
   (claim_C1 "w x y z" "w" "x" "y" "z" []).2.2.2.1 (by decide),
   (claim_C1 "v w x y z" "v" "w" "x" "y" ["z"]).2.2.2.2 (by decide)⟩

/-! ## Claim C3: the border-side expander -/

/-- C3: for a value in the fixed border-style keyword set, `borderSide`
returns Width = `"initial"`, Style = the keyword, Color = `"initial"`; for a
single-token value outside that set the net result is Width = the token and
Style = Color = `"initial"` (the redundant re-assignment of Width in the
one-token branch is behaviourally inert). -/
theorem claim_C3 (value side : String) :
    (_borderStyles.contains value = true →
      borderSide value side =
        [("border" ++ side ++ "Width", "initial"),
         ("border" ++ side ++ "Style", value),
         ("border" ++ side ++ "Color", "initial")]) ∧
    (_borderStyles.contains value = false → (jsSplit value ' ').length = 1 →
      borderSide value side =
        [("border" ++ side ++ "Width", value),
         ("border" ++ side ++ "Style", "initial"),
         ("border" ++ side ++ "Color", "initial")]) := by
  have hWS : ("border" ++ side ++ "Width") ≠ ("border" ++ side ++ "Style") :=
    strApp_ne_right _ (by decide)
  have hWC : ("border" ++ side ++ "Width") ≠ ("border" ++ side ++ "Color") :=
    strApp_ne_right _ (by decide)
  have hSC : ("border" ++ side ++ "Style") ≠ ("border" ++ side ++ "Color") :=
    strApp_ne_right _ (by decide)
  constructor
  · intro hkw
    rw [borderSide, if_pos hkw]
    exact setKV3_fresh _ _ _ _ _ _ hWS hWC hSC
  · intro hkw hlen
    obtain ⟨w, hw⟩ := List.length_eq_one.mp hlen
    have hwv : w = value := jsSplit_singleton hw
    subst hwv
    have h3 := setKV3_fresh ("border" ++ side ++ "Width") ("border" ++ side ++ "Style")
      ("border" ++ side ++ "Color") w "initial" "initial" hWS hWC hSC
    have hover : setKV
        [("border" ++ side ++ "Width", w), ("border" ++ side ++ "Style", "initial"),
         ("border" ++ side ++ "Color", "initial")] ("border" ++ side ++ "Width") w =
        [("border" ++ side ++ "Width", w), ("border" ++ side ++ "Style", "initial"),
         ("border" ++ side ++ "Color", "initial")] := by
      rw [setKV_cons_hit _ (by simp)]
    rw [borderSide, if_neg (by simpa using hkw), hw]
    by_cases hv : (w != "") = true
    · simp [List.getD, truthyStr, h3, hover, hv]
    · simp [List.getD, truthyStr, h3, hv]

/-- Witness for C3: the keyword case at `("solid", "Top")` and the one-token
case at `("1px", "Top")`. -/
theorem claim_C3_witness :
    borderSide "solid" "Top" =
      [("borderTopWidth", "initial"), ("borderTopStyle", "solid"),
       ("borderTopColor", "initial")] ∧
    borderSide "1px" "Top" =
      [("borderTopWidth", "1px"), ("borderTopStyle", "initial"),
       ("borderTopColor", "initial")] :=
  ⟨(claim_C3 "solid" "Top").1 (by decide),
   (claim_C3 "1px" "Top").2 (by decide) (by decide)⟩

/-! ## Key sets of the expanders -/

theorem keys_sub_setKV {β : Type} {L : List String} {o : List (String × β)} {k : String}
    (val : β) (ho : ∀ kk ∈ keysOf o, kk ∈ L) (hk : k ∈ L) :
    ∀ kk ∈ keysOf (setKV o k val), kk ∈ L := by
  intro kk h
  rcases keysOf_setKV_sub h with h' | h'
  · exact ho kk h'
  · exact h' ▸ hk

theorem keys_sub_ite_setKV {β : Type} {L : List String} (c : Prop) [Decidable c]
    {X : List (String × β)} {k : String} (val : β)
    (hX : ∀ kk ∈ keysOf X, kk ∈ L) (hk : k ∈ L) :
    ∀ kk ∈ keysOf (if c then setKV X k val else X), kk ∈ L := by
  intro kk h
  by_cases hc : c
  · rw [if_pos hc] at h
    exact keys_sub_setKV val hX hk kk h
  · rw [if_neg hc] at h
    exact hX kk h

theorem keys_sub_nil {β : Type} {L : List String} :
    ∀ kk ∈ keysOf ([] : List (String × β)), kk ∈ L := by
  simp [keysOf]

theorem nodup_keysOf_ite_setKV {β : Type} (c : Prop) [Decidable c]
    {X : List (String × β)} {k : String} (val : β) (hX : (keysOf X).Nodup) :
    (keysOf (if c then setKV X k val else X)).Nodup := by
  by_cases hc : c
  · rw [if_pos hc]; exact nodup_keysOf_setKV _ hX
  · rw [if_neg hc]; exact hX

theorem keysOf_borderSide_sub (v s : String) :
    ∀ kk ∈ keysOf (borderSide v s),
      kk ∈ (["border" ++ s ++ "Width", "border" ++ s ++ "Style",
        "border" ++ s ++ "Color"] : List String) := by
  have hW : ("border" ++ s ++ "Width") ∈ (["border" ++ s ++ "Width",
      "border" ++ s ++ "Style", "border" ++ s ++ "Color"] : List String) := by simp
  have hS : ("border" ++ s ++ "Style") ∈ (["border" ++ s ++ "Width",
      "border" ++ s ++ "Style", "border" ++ s ++ "Color"] : List String) := by simp
  have hC : ("border" ++ s ++ "Color") ∈ (["border" ++ s ++ "Width",
      "border" ++ s ++ "Style", "border" ++ s ++ "Color"] : List String) := by simp
  rw [borderSide]
  split
  · exact keys_sub_setKV _ (keys_sub_setKV _ (keys_sub_setKV _ keys_sub_nil hW) hS) hC
  · dsimp only
    apply keys_sub_ite_setKV
    · apply keys_sub_ite_setKV
      · apply keys_sub_ite_setKV
        · by_cases hlen : (jsSplit v ' ').length = 1
          · rw [if_pos hlen]
            exact keys_sub_setKV _ (keys_sub_setKV _ (keys_sub_setKV _ keys_sub_nil hW) hS) hC
          · rw [if_neg hlen]
            exact keys_sub_nil
        · exact hW
      · exact hS
    · exact hC

theorem nodup_keysOf_borderSide (v s : String) : (keysOf (borderSide v s)).Nodup := by
  have hnil : (keysOf ([] : List (String × String))).Nodup := by simp [keysOf]
  rw [borderSide]
  split
  · exact nodup_keysOf_setKV _ (nodup_keysOf_setKV _ (nodup_keysOf_setKV _ hnil))
  · dsimp only
    apply nodup_keysOf_ite_setKV
    apply nodup_keysOf_ite_setKV
    apply nodup_keysOf_ite_setKV
    by_cases hlen : (jsSplit v ' ').length = 1
    · rw [if_pos hlen]
      exact nodup_keysOf_setKV _ (nodup_keysOf_setKV _ (nodup_keysOf_setKV _ hnil))
    · rw [if_neg hlen]; exact hnil

theorem keysOf_applyFour_sub (arr : List String) (pre suf : String) :
    ∀ kk ∈ keysOf (_applyFour arr pre suf),
      kk ∈ ([pre ++ "Top" ++ suf, pre ++ "Right" ++ suf,
        pre ++ "Bottom" ++ suf, pre ++ "Left" ++ suf] : List String) := by
  rw [_applyFour]
  exact keys_sub_setKV _ (keys_sub_setKV _ (keys_sub_setKV _
    (keys_sub_setKV _ keys_sub_nil (by simp)) (by simp)) (by simp)) (by simp)

theorem nodup_keysOf_applyFour (arr : List String) (pre suf : String) :
    (keysOf (_applyFour arr pre suf)).Nodup := by
  rw [_applyFour]
  exact nodup_keysOf_setKV _ (nodup_keysOf_setKV _ (nodup_keysOf_setKV _
    (nodup_keysOf_setKV _ (by simp [keysOf]))))

theorem keysOf_applyFourCorner_sub (arr : List String) (pre suf : String) :
    ∀ kk ∈ keysOf (_applyFourCorner arr pre suf),
      kk ∈ ([pre ++ "TopLeft" ++ suf, pre ++ "TopRight" ++ suf,
        pre ++ "BottomRight" ++ suf, pre ++ "BottomLeft" ++ suf] : List String) := by
  rw [_applyFourCorner]
  exact keys_sub_setKV _ (keys_sub_setKV _ (keys_sub_setKV _
    (keys_sub_setKV _ keys_sub_nil (by simp)) (by simp)) (by simp)) (by simp)

theorem nodup_keysOf_applyFourCorner (arr : List String) (pre suf : String) :
    (keysOf (_applyFourCorner arr pre suf)).Nodup := by
  rw [_applyFourCorner]
  exact nodup_keysOf_setKV _ (nodup_keysOf_setKV _ (nodup_keysOf_setKV _
    (nodup_keysOf_setKV _ (by simp [keysOf]))))

/-! ## The composite border expander is a collision-free merge -/

theorem borderSide_sides_disjoint (value s1 s2 : String)
    (h : ∀ kk ∈ (["border" ++ s2 ++ "Width", "border" ++ s2 ++ "Style",
        "border" ++ s2 ++ "Color"] : List String),
      kk ∉ (["border" ++ s1 ++ "Width", "border" ++ s1 ++ "Style",
        "border" ++ s1 ++ "Color"] : List String)) :
    ∀ kk ∈ keysOf (borderSide value s2), kk ∉ keysOf (borderSide value s1) := by
  intro kk h2 h1
  exact h kk (keysOf_borderSide_sub value s2 kk h2) (keysOf_borderSide_sub value s1 kk h1)

/-- The four side expansions of `border` never collide: `Object.assign` of
the four side objects is plain concatenation. -/
theorem border_eq_append (value : String) :
    border value =
      borderSide value "Left" ++ borderSide value "Right" ++
      borderSide value "Top" ++ borderSide value "Bottom" := by
  have hdRL := borderSide_sides_disjoint value "Left" "Right" (by decide)
  have hdTL := borderSide_sides_disjoint value "Left" "Top" (by decide)
  have hdTR := borderSide_sides_disjoint value "Right" "Top" (by decide)
  have hdBL := borderSide_sides_disjoint value "Left" "Bottom" (by decide)
  have hdBR := borderSide_sides_disjoint value "Right" "Bottom" (by decide)
  have hdBT := borderSide_sides_disjoint value "Top" "Bottom" (by decide)
  rw [border]
  rw [assignEntries_fresh_append [] (nodup_keysOf_borderSide value "Left")
      (by intro kk _; simp [keysOf]),
    List.nil_append]
  rw [assignEntries_fresh_append _ (nodup_keysOf_borderSide value "Right") hdRL]
  rw [assignEntries_fresh_append _ (nodup_keysOf_borderSide value "Top") ?hT]
  case hT =>
    intro kk hk
    rw [keysOf_append]
    intro hmem
    rcases List.mem_append.mp hmem with h' | h'
    · exact hdTL kk hk h'
    · exact hdTR kk hk h'
  rw [assignEntries_fresh_append _ (nodup_keysOf_borderSide value "Bottom") ?hB]
  case hB =>
    intro kk hk
    rw [keysOf_append, keysOf_append]
    intro hmem
    rcases List.mem_append.mp hmem with h' | h'
    · rcases List.mem_append.mp h' with h'' | h''
      · exact hdBL kk hk h''
      · exact hdBR kk hk h''
    · exact hdBT kk hk h'

/-! ## Claim C4: the composite border expander -/

/-- C4: `border value` is the merge of the four `borderSide` expansions in
Left, Right, Top, Bottom order, and the four side objects have pairwise
disjoint side-qualified key sets, so the merge is plain concatenation and no
later side ever overwrites an earlier one; in particular `build` on
`{border: "1px solid red", color: "blue"}` yields exactly the twelve
longhand keys with `border` dropped and `color` unchanged. -/
theorem claim_C4 (α : Type) (value : String) :
    (border value =
      borderSide value "Left" ++ borderSide value "Right" ++
      borderSide value "Top" ++ borderSide value "Bottom") ∧
    @build α
      (Value.obj [("border", Value.str "1px solid red"), ("color", Value.str "blue")]) =
      Value.obj
        [("borderLeftWidth", Value.str "1px"), ("borderLeftStyle", Value.str "solid"),
         ("borderLeftColor", Value.str "red"), ("borderRightWidth", Value.str "1px"),
         ("borderRightStyle", Value.str "solid"), ("borderRightColor", Value.str "red"),
         ("borderTopWidth", Value.str "1px"), ("borderTopStyle", Value.str "solid"),
         ("borderTopColor", Value.str "red"), ("borderBottomWidth", Value.str "1px"),
         ("borderBottomStyle", Value.str "solid"), ("borderBottomColor", Value.str "red"),
         ("color", Value.str "blue")] :=
  ⟨border_eq_append value, rfl⟩

/-! ## Claim C5: the border-radius expander -/

theorem setKV4_fresh {β : Type} (k1 k2 k3 k4 : String) (v1 v2 v3 v4 : β)
    (h12 : k1 ≠ k2) (h13 : k1 ≠ k3) (h14 : k1 ≠ k4)
    (h23 : k2 ≠ k3) (h24 : k2 ≠ k4) (h34 : k3 ≠ k4) :
    setKV (setKV (setKV (setKV [] k1 v1) k2 v2) k3 v3) k4 v4 =
      [(k1, v1), (k2, v2), (k3, v3), (k4, v4)] := by
  have b14 : ¬(k1 == k4) = true := by simp only [beq_iff_eq]; exact h14
  have b24 : ¬(k2 == k4) = true := by simp only [beq_iff_eq]; exact h24
  have b34 : ¬(k3 == k4) = true := by simp only [beq_iff_eq]; exact h34
  rw [setKV3_fresh _ _ _ _ _ _ h12 h13 h23,
    setKV_cons_miss _ b14, setKV_cons_miss _ b24, setKV_cons_miss _ b34]
  rfl

theorem explode_length (value : String) : 4 ≤ (_explodeToFour value).length := by
  rw [_explodeToFour]
  split
  · simp
  · split
    · simp
    · split
      · simp
      · have h1 := jsSplit_length_pos value ' '
        omega

theorem getD_mapIdx_str (l : List String) (f : ℕ → String → String) {i : ℕ}
    (hi : i < l.length) :
    (l.mapIdx f).getD i "" = f i (l.getD i "") := by
  rw [List.getD_eq_getElem _ _ (by rw [List.length_mapIdx]; exact hi),
    List.getD_eq_getElem _ _ hi]
  exact List.getElem_mapIdx

theorem applyFourCorner_radius_eq (arr : List String) :
    _applyFourCorner arr "border" "Radius" =
      [("borderTopLeftRadius", arr.getD 0 ""), ("borderTopRightRadius", arr.getD 1 ""),
       ("borderBottomRightRadius", arr.getD 2 ""), ("borderBottomLeftRadius", arr.getD 3 "")] := by
  rw [_applyFourCorner,
    setKV4_fresh _ _ _ _ _ _ _ _ (by decide) (by decide) (by decide) (by decide)
      (by decide) (by decide)]
  rw [show ("border" ++ "TopLeft" ++ "Radius" : String) = "borderTopLeftRadius" from by decide,
    show ("border" ++ "TopRight" ++ "Radius" : String) = "borderTopRightRadius" from by decide,
    show ("border" ++ "BottomRight" ++ "Radius" : String) = "borderBottomRightRadius" from by decide,
    show ("border" ++ "BottomLeft" ++ "Radius" : String) = "borderBottomLeftRadius" from by decide]

/-- C5: for a value of the form `<h>/<v>`, `borderRadius` expands each half
independently to four slots and returns the four corner keys in
TopLeft/TopRight/BottomRight/BottomLeft order, each holding the two-value
string `"<horiz> <vert>"` of its slot index; for a value without a `/`, only
the first axis is used; in particular `borderRadius "4px/8px"` maps all four
corner keys to `"4px 8px"`. -/
theorem claim_C5 (value hh vv w : String) :
    (jsSplit value '/' = [hh, vv] →
      borderRadius value =
        [("borderTopLeftRadius",
           (_explodeToFour hh).getD 0 "" ++ " " ++ (_explodeToFour vv).getD 0 "undefined"),
         ("borderTopRightRadius",
           (_explodeToFour hh).getD 1 "" ++ " " ++ (_explodeToFour vv).getD 1 "undefined"),
         ("borderBottomRightRadius",
           (_explodeToFour hh).getD 2 "" ++ " " ++ (_explodeToFour vv).getD 2 "undefined"),
         ("borderBottomLeftRadius",
           (_explodeToFour hh).getD 3 "" ++ " " ++ (_explodeToFour vv).getD 3 "undefined")]) ∧
    (jsSplit value '/' = [w] →
      borderRadius value =
        [("borderTopLeftRadius", (_explodeToFour w).getD 0 ""),
         ("borderTopRightRadius", (_explodeToFour w).getD 1 ""),
         ("borderBottomRightRadius", (_explodeToFour w).getD 2 ""),
         ("borderBottomLeftRadius", (_explodeToFour w).getD 3 "")]) ∧
    borderRadius "4px/8px" =
      [("borderTopLeftRadius", "4px 8px"), ("borderTopRightRadius", "4px 8px"),
       ("borderBottomRightRadius", "4px 8px"), ("borderBottomLeftRadius", "4px 8px")] := by
  refine ⟨fun hsp => ?_, fun hsp => ?_, rfl⟩
  · have hinc : jsIncludes value "/" = true := by
      have := jsIncludes_of_jsSplit_two value '/' (by rw [hsp]; simp)
      exact this
    have hlen := explode_length hh
    rw [borderRadius]
    dsimp only
    rw [hsp, if_pos hinc]
    rw [show ([hh, vv] : List String).getD 0 "" = hh from rfl,
      show ([hh, vv] : List String).getD 1 "" = vv from rfl]
    rw [applyFourCorner_radius_eq]
    rw [getD_mapIdx_str _ _ (by omega), getD_mapIdx_str _ _ (by omega),
      getD_mapIdx_str _ _ (by omega), getD_mapIdx_str _ _ (by omega)]
  · have hinc : jsIncludes value "/" = false := by
      have := jsIncludes_false_of_jsSplit_one value '/' (by rw [hsp]; rfl)
      exact this
    rw [borderRadius]
    dsimp only
    rw [hsp, if_neg (by rw [hinc]; simp)]
    rw [show ([w] : List String).getD 0 "" = w from rfl]
    rw [applyFourCorner_radius_eq]

/-- Witness for C5: the two-axis case at `"4px/8px"` and the one-axis case
at `"4px"`. -/
theorem claim_C5_witness :
    borderRadius "4px/8px" =
      [("borderTopLeftRadius",
         (_explodeToFour "4px").getD 0 "" ++ " " ++ (_explodeToFour "8px").getD 0 "undefined"),
       ("borderTopRightRadius",
         (_explodeToFour "4px").getD 1 "" ++ " " ++ (_explodeToFour "8px").getD 1 "undefined"),
       ("borderBottomRightRadius",
         (_explodeToFour "4px").getD 2 "" ++ " " ++ (_explodeToFour "8px").getD 2 "undefined"),
       ("borderBottomLeftRadius",
         (_explodeToFour "4px").getD 3 "" ++ " " ++ (_explodeToFour "8px").getD 3 "undefined")] ∧
    borderRadius "4px" =
      [("borderTopLeftRadius", (_explodeToFour "4px").getD 0 ""),
       ("borderTopRightRadius", (_explodeToFour "4px").getD 1 ""),
       ("borderBottomRightRadius", (_explodeToFour "4px").getD 2 ""),
       ("borderBottomLeftRadius", (_explodeToFour "4px").getD 3 "")] :=
  ⟨(claim_C5 "4px/8px" "4px" "8px" "").1 (by decide),
   (claim_C5 "4px" "" "" "4px").2.1 (by decide)⟩

/-! ## Claim C10: the unit normaliser -/

/-- C10: `applyPX` preserves the length of the token sequence, appends
`"px"` to every token in which none of the recognised unit markers
`px`, `em`, `pt`, `%` occurs, and returns every token carrying such a unit
marker unchanged. -/
theorem claim_C10 (values : List String) :
    (applyPX values).length = values.length ∧
    ∀ i, i < values.length →
      ((∀ u ∈ _units, jsIncludes (values.getD i "") u = false) →
        (applyPX values).getD i "" = values.getD i "" ++ "px") ∧
      ((∃ u ∈ _units, jsIncludes (values.getD i "") u = true) →
        (applyPX values).getD i "" = values.getD i "") := by
  constructor
  · simp [applyPX]
  · intro i hi
    have hi' : i < (applyPX values).length := by simpa [applyPX] using hi
    have hvd : values.getD i "" = values[i] := List.getD_eq_getElem _ _ hi
    have happ : (applyPX values).getD i "" =
        (if (_units.filter (fun u => jsIncludes values[i] u)).length = 0
          then values[i] ++ "px" else values[i]) := by
      rw [List.getD_eq_getElem _ _ hi']
      simp [applyPX]
    rw [hvd, happ]
    constructor
    · intro hall
      rw [if_pos ?hc]
      case hc =>
        rw [List.length_eq_zero, List.filter_eq_nil_iff]
        intro u hu
        simp [hall u hu]
    · intro ⟨u, hu, hocc⟩
      rw [if_neg ?hc]
      case hc =>
        intro hz
        rw [List.length_eq_zero, List.filter_eq_nil_iff] at hz
        exact hz u hu (by simp [hocc])

/-- Witness for C10: a unit-free token gets `"px"` appended and a token
carrying a unit is unchanged. -/
theorem claim_C10_witness :
    (applyPX ["5", "2em"]).getD 0 "" = "5" ++ "px" ∧
    (applyPX ["5", "2em"]).getD 1 "" = "2em" :=
  ⟨((claim_C10 ["5", "2em"]).2 0 (by decide)).1 (by decide),
   ((claim_C10 ["5", "2em"]).2 1 (by decide)).2 ⟨"em", by decide, by decide⟩⟩

/-! ## Key sets of the dispatched expanders -/

theorem keysOf_borderRadius_sub (v : String) :
    ∀ kk ∈ keysOf (borderRadius v),
      kk ∈ (["border" ++ "TopLeft" ++ "Radius", "border" ++ "TopRight" ++ "Radius",
        "border" ++ "BottomRight" ++ "Radius",
        "border" ++ "BottomLeft" ++ "Radius"] : List String) :=
  fun kk hk => keysOf_applyFourCorner_sub _ _ _ kk hk

theorem nodup_keysOf_borderRadius (v : String) : (keysOf (borderRadius v)).Nodup :=
  nodup_keysOf_applyFourCorner _ _ _

theorem keysOf_border_sub (v : String) :
    ∀ kk ∈ keysOf (border v), kk ∈ expKeysOf "border" := by
  have hL : ∀ x ∈ (["border" ++ "Left" ++ "Width", "border" ++ "Left" ++ "Style",
      "border" ++ "Left" ++ "Color"] : List String), x ∈ expKeysOf "border" := by decide
  have hR : ∀ x ∈ (["border" ++ "Right" ++ "Width", "border" ++ "Right" ++ "Style",
      "border" ++ "Right" ++ "Color"] : List String), x ∈ expKeysOf "border" := by decide
  have hT : ∀ x ∈ (["border" ++ "Top" ++ "Width", "border" ++ "Top" ++ "Style",
      "border" ++ "Top" ++ "Color"] : List String), x ∈ expKeysOf "border" := by decide
  have hB : ∀ x ∈ (["border" ++ "Bottom" ++ "Width", "border" ++ "Bottom" ++ "Style",
      "border" ++ "Bottom" ++ "Color"] : List String), x ∈ expKeysOf "border" := by decide
  intro kk hkk
  rw [border_eq_append, keysOf_append, keysOf_append, keysOf_append] at hkk
  rcases List.mem_append.mp hkk with h | h
  · rcases List.mem_append.mp h with h' | h'
    · rcases List.mem_append.mp h' with h'' | h''
      · exact hL kk (keysOf_borderSide_sub v "Left" kk h'')
      · exact hR kk (keysOf_borderSide_sub v "Right" kk h'')
    · exact hT kk (keysOf_borderSide_sub v "Top" kk h')
  · exact hB kk (keysOf_borderSide_sub v "Bottom" kk h)

theorem nodup_keysOf_border (v : String) : (keysOf (border v)).Nodup := by
  have hdRL := borderSide_sides_disjoint v "Left" "Right" (by decide)
  have hdTL := borderSide_sides_disjoint v "Left" "Top" (by decide)
  have hdTR := borderSide_sides_disjoint v "Right" "Top" (by decide)
  have hdBL := borderSide_sides_disjoint v "Left" "Bottom" (by decide)
  have hdBR := borderSide_sides_disjoint v "Right" "Bottom" (by decide)
  have hdBT := borderSide_sides_disjoint v "Top" "Bottom" (by decide)
  rw [border_eq_append, keysOf_append, keysOf_append, keysOf_append]
  refine List.Nodup.append (List.Nodup.append
    (List.Nodup.append (nodup_keysOf_borderSide v "Left") (nodup_keysOf_borderSide v "Right") ?_)
    (nodup_keysOf_borderSide v "Top") ?_) (nodup_keysOf_borderSide v "Bottom") ?_
  · intro a haL haR
    exact hdRL a haR haL
  · intro a ha haT
    rcases List.mem_append.mp ha with h | h
    · exact hdTL a haT h
    · exact hdTR a haT h
  · intro a ha haB
    rcases List.mem_append.mp ha with h | h
    · rcases List.mem_append.mp h with h' | h'
      · exact hdBL a haB h'
      · exact hdBR a haB h'
    · exact hdBT a haB h

/-- The dispatch domain of the source's truthy `this[key]` lookup within the
modelled fragment: exactly the eleven spec shorthands plus `borderSide`. -/
theorem methodExpander_isSome_iff (k : String) :
    (methodExpander k).isSome = true ↔ k ∈ specShorthandKeys ∨ k = "borderSide" := by
  unfold methodExpander
  split
  all_goals simp_all [specShorthandKeys]

/-- Every expander output has duplicate-free keys drawn from the fixed key
superset of its dispatch key. -/
theorem methodExpander_keys {k : String} {e : String → List (String × String)}
    (h : methodExpander k = some e) (v : String) :
    (keysOf (e v)).Nodup ∧ ∀ kk ∈ keysOf (e v), kk ∈ expKeysOf k := by
  unfold methodExpander at h
  split at h
  · rw [Option.some.injEq] at h
    subst h
    refine ⟨nodup_keysOf_applyFour _ _ _, fun kk hkk => ?_⟩
    exact (by decide : ∀ x ∈ (["margin" ++ "Top" ++ "", "margin" ++ "Right" ++ "",
      "margin" ++ "Bottom" ++ "", "margin" ++ "Left" ++ ""] : List String),
        x ∈ expKeysOf "margin") kk (keysOf_applyFour_sub (_explodeToFour v) "margin" "" kk hkk)
  · rw [Option.some.injEq] at h
    subst h
    refine ⟨nodup_keysOf_applyFour _ _ _, fun kk hkk => ?_⟩
    exact (by decide : ∀ x ∈ (["padding" ++ "Top" ++ "", "padding" ++ "Right" ++ "",
      "padding" ++ "Bottom" ++ "", "padding" ++ "Left" ++ ""] : List String),
        x ∈ expKeysOf "padding") kk (keysOf_applyFour_sub (_explodeToFour v) "padding" "" kk hkk)
  · rw [Option.some.injEq] at h
    subst h
    refine ⟨nodup_keysOf_borderRadius _, fun kk hkk => ?_⟩
    exact (by decide : ∀ x ∈ (["border" ++ "TopLeft" ++ "Radius",
      "border" ++ "TopRight" ++ "Radius", "border" ++ "BottomRight" ++ "Radius",
      "border" ++ "BottomLeft" ++ "Radius"] : List String),
        x ∈ expKeysOf "borderRadius") kk (keysOf_borderRadius_sub v kk hkk)
  · rw [Option.some.injEq] at h
    subst h
    refine ⟨nodup_keysOf_applyFour _ _ _, fun kk hkk => ?_⟩
    exact (by decide : ∀ x ∈ (["border" ++ "Top" ++ "Style", "border" ++ "Right" ++ "Style",
      "border" ++ "Bottom" ++ "Style", "border" ++ "Left" ++ "Style"] : List String),
        x ∈ expKeysOf "borderStyle") kk
      (keysOf_applyFour_sub (_explodeToFour v) "border" "Style" kk hkk)
  · rw [Option.some.injEq] at h
    subst h
    refine ⟨nodup_keysOf_applyFour _ _ _, fun kk hkk => ?_⟩
    exact (by decide : ∀ x ∈ (["border" ++ "Top" ++ "Color", "border" ++ "Right" ++ "Color",
      "border" ++ "Bottom" ++ "Color", "border" ++ "Left" ++ "Color"] : List String),
        x ∈ expKeysOf "borderColor") kk
      (keysOf_applyFour_sub (_explodeToFour v) "border" "Color" kk hkk)
  · rw [Option.some.injEq] at h
    subst h
    refine ⟨nodup_keysOf_applyFour _ _ _, fun kk hkk => ?_⟩
    exact (by decide : ∀ x ∈ (["border" ++ "Top" ++ "Width", "border" ++ "Right" ++ "Width",
      "border" ++ "Bottom" ++ "Width", "border" ++ "Left" ++ "Width"] : List String),
        x ∈ expKeysOf "borderWidth") kk
      (keysOf_applyFour_sub (_explodeToFour v) "border" "Width" kk hkk)
  · rw [Option.some.injEq] at h
    subst h
    refine ⟨nodup_keysOf_borderSide _ _, fun kk hkk => ?_⟩
    exact (by decide : ∀ x ∈ (["border" ++ "Left" ++ "Width", "border" ++ "Left" ++ "Style",
      "border" ++ "Left" ++ "Color"] : List String),
        x ∈ expKeysOf "borderLeft") kk (keysOf_borderSide_sub v "Left" kk hkk)
  · rw [Option.some.injEq] at h
    subst h
    refine ⟨nodup_keysOf_borderSide _ _, fun kk hkk => ?_⟩
    exact (by decide : ∀ x ∈ (["border" ++ "Right" ++ "Width", "border" ++ "Right" ++ "Style",
      "border" ++ "Right" ++ "Color"] : List String),
        x ∈ expKeysOf "borderRight") kk (keysOf_borderSide_sub v "Right" kk hkk)
  · rw [Option.some.injEq] at h
    subst h
    refine ⟨nodup_keysOf_borderSide _ _, fun kk hkk => ?_⟩
    exact (by decide : ∀ x ∈ (["border" ++ "Top" ++ "Width", "border" ++ "Top" ++ "Style",
      "border" ++ "Top" ++ "Color"] : List String),
        x ∈ expKeysOf "borderTop") kk (keysOf_borderSide_sub v "Top" kk hkk)
  · rw [Option.some.injEq] at h
    subst h
    refine ⟨nodup_keysOf_borderSide _ _, fun kk hkk => ?_⟩
    exact (by decide : ∀ x ∈ (["border" ++ "Bottom" ++ "Width", "border" ++ "Bottom" ++ "Style",
      "border" ++ "Bottom" ++ "Color"] : List String),
        x ∈ expKeysOf "borderBottom") kk (keysOf_borderSide_sub v "Bottom" kk hkk)
  · rw [Option.some.injEq] at h
    subst h
    exact ⟨nodup_keysOf_border v, keysOf_border_sub v⟩
  · rw [Option.some.injEq] at h
    subst h
    refine ⟨nodup_keysOf_borderSide _ _, fun kk hkk => ?_⟩
    exact (by decide : ∀ x ∈ (["border" ++ "undefined" ++ "Width",
      "border" ++ "undefined" ++ "Style", "border" ++ "undefined" ++ "Color"] : List String),
        x ∈ expKeysOf "borderSide") kk (keysOf_borderSide_sub v "undefined" kk hkk)
  · exact absurd h (by simp)

/-! ## The key loop of `build`: untouched keys are preserved -/

theorem buildEntries_nil {α : Type} (acc : List (String × Value α)) :
    buildEntries [] acc = some acc := rfl

theorem buildEntries_cons_not_str {α : Type} {v1 : Value α} (k1 : String)
    (rest acc : List (String × Value α)) (hns : ∀ s, v1 ≠ .str s) :
    buildEntries ((k1, v1) :: rest) acc =
      match walkElem v1 with
      | .err => none
      | w => buildEntries rest (setKV acc k1 w) := by
  cases v1
  case str s => exact absurd rfl (hns s)
  all_goals rfl

theorem entryWrites_str_some {α : Type} {k1 : String} {s : String}
    {e : String → List (String × String)} (hme : methodExpander k1 = some e) :
    @entryWrites α (k1, Value.str s) = expKeysOf k1 := by
  simp [entryWrites, hme]

theorem entryWrites_str_none {α : Type} {k1 : String} {s : String}
    (hme : methodExpander k1 = none) :
    @entryWrites α (k1, Value.str s) = [k1] := by
  simp [entryWrites, hme]

theorem entryWrites_not_str {α : Type} {k1 : String} {v1 : Value α}
    (hns : ∀ s, v1 ≠ .str s) : entryWrites (k1, v1) = [k1] := by
  cases v1
  case str s => exact absurd rfl (hns s)
  all_goals rfl

/-- A key that no entry of `m` can write keeps, in the output of the key
loop, exactly the binding it has in the accumulator. -/
theorem lookupKV_buildEntries_skip {α : Type} {m acc o : List (String × Value α)} {k : String}
    (hb : buildEntries m acc = some o) (hk : ∀ e ∈ m, k ∉ entryWrites e) :
    lookupKV o k = lookupKV acc k := by
  induction m generalizing acc with
  | nil =>
    rw [buildEntries_nil, Option.some.injEq] at hb
    rw [hb]
  | cons e rest ih =>
    obtain ⟨k1, v1⟩ := e
    have hk1 := hk (k1, v1) (List.mem_cons_self _ _)
    have hkrest : ∀ e ∈ rest, k ∉ entryWrites e := fun e he => hk e (List.mem_cons_of_mem _ he)
    by_cases hstr : ∃ s, v1 = Value.str s
    · obtain ⟨s, rfl⟩ := hstr
      cases hme : methodExpander k1 with
      | some ex =>
        rw [show buildEntries ((k1, Value.str s) :: rest) acc =
            (match methodExpander k1 with
              | some e => buildEntries rest (assignEntries acc (strEntries (e s)))
              | none => if exoticTruthyKeys.contains k1 then none
                  else buildEntries rest (setKV acc k1 (.str s))) from rfl, hme] at hb
        rw [entryWrites_str_some hme] at hk1
        rw [ih hb hkrest, lookupKV_assign_not_mem]
        intro hmem
        rw [keysOf_strEntries] at hmem
        exact hk1 ((methodExpander_keys hme s).2 k hmem)
      | none =>
        rw [show buildEntries ((k1, Value.str s) :: rest) acc =
            (match methodExpander k1 with
              | some e => buildEntries rest (assignEntries acc (strEntries (e s)))
              | none => if exoticTruthyKeys.contains k1 then none
                  else buildEntries rest (setKV acc k1 (.str s))) from rfl, hme] at hb
        rw [entryWrites_str_none hme] at hk1
        have hne : ¬k = k1 := by simpa using hk1
        by_cases hex : exoticTruthyKeys.contains k1 = true
        · rw [if_pos hex] at hb
          cases hb
        · rw [if_neg hex] at hb
          rw [ih hb hkrest, lookupKV_setKV, if_neg hne]
    · have hns : ∀ s, v1 ≠ Value.str s := fun s hh => hstr ⟨s, hh⟩
      rw [buildEntries_cons_not_str _ _ _ hns] at hb
      rw [entryWrites_not_str hns] at hk1
      have hne : ¬k = k1 := by simpa using hk1
      cases hw : walkElem v1 with
      | err =>
        rw [hw] at hb
        cases hb
      | str s' =>
        rw [hw] at hb
        rw [ih hb hkrest, lookupKV_setKV, if_neg hne]
      | num n =>
        rw [hw] at hb
        rw [ih hb hkrest, lookupKV_setKV, if_neg hne]
      | bool b =>
        rw [hw] at hb
        rw [ih hb hkrest, lookupKV_setKV, if_neg hne]
      | null =>
        rw [hw] at hb
        rw [ih hb hkrest, lookupKV_setKV, if_neg hne]
      | fn f =>
        rw [hw] at hb
        rw [ih hb hkrest, lookupKV_setKV, if_neg hne]
      | arr l =>
        rw [hw] at hb
        rw [ih hb hkrest, lookupKV_setKV, if_neg hne]
      | obj mm =>
        rw [hw] at hb
        rw [ih hb hkrest, lookupKV_setKV, if_neg hne]

theorem build_obj_some {α : Type} {m o : List (String × Value α)}
    (h : build (Value.obj m) = Value.obj o) : buildEntries m [] = some o := by
  cases hbe : buildEntries m ([] : List (String × Value α)) with
  | some o' =>
    rw [show build (Value.obj m) =
        (match buildEntries m [] with
          | some o' => Value.obj o'
          | none => Value.err) from rfl, hbe] at h
    change Value.obj o' = Value.obj o at h
    injection h with h'
    rw [h']
  | none =>
    rw [show build (Value.obj m) =
        (match buildEntries m [] with
          | some o' => Value.obj o'
          | none => Value.err) from rfl, hbe] at h
    cases h

/-! ## Claim C2: the dispatch domain of `build` -/

/-- C2 is refuted as stated: `"borderSide"` is outside the fixed
eleven-element shorthand set, yet a string value stored under that key is
not copied unchanged — `this["borderSide"]` is truthy, so the source calls
the two-argument `borderSide` method with an `undefined` side and merges
keys `borderundefined{Width,Style,Color}` instead. -/
theorem claim_C2_counterexample :
    ("borderSide" ∈ specShorthandKeys → False) ∧
    @build Unit (Value.obj [("borderSide", Value.str "1px")]) ≠
      Value.obj [("borderSide", Value.str "1px")] ∧
    @build Unit (Value.obj [("borderSide", Value.str "1px")]) =
      Value.obj [("borderundefinedWidth", Value.str "1px"),
        ("borderundefinedStyle", Value.str "initial"),
        ("borderundefinedColor", Value.str "initial")] := by
  refine ⟨by decide, ?_, rfl⟩
  intro h
  have h2 := congrArg (fun x => match x with
    | Value.obj o => keysOf o
    | _ => ([] : List String)) h
  exact absurd h2 (by decide)

/-- C2 amended: within the modelled fragment the truthy dispatch domain is
the eleven spec shorthands plus `borderSide`; an entry whose key is one of
the eleven shorthands has the expander's mapping merged into the output,
with the shorthand key itself dropped; an entry whose key is dispatch-free
and not among the remaining truthy method keys is copied unchanged. -/
theorem claim_C2_amended (α : Type) (k v : String) (rest o : List (String × Value α)) :
    ((methodExpander k).isSome = true ↔ k ∈ specShorthandKeys ∨ k = "borderSide") ∧
    (∀ e : String → List (String × String),
      k ∈ specShorthandKeys →
      methodExpander k = some e →
      (∀ e' ∈ rest, k ∉ entryWrites e') →
      build (Value.obj ((k, Value.str v) :: rest)) = Value.obj o →
      lookupKV o k = none ∧
      ∀ kk vv, lookupKV (e v) kk = some vv → (∀ e' ∈ rest, kk ∉ entryWrites e') →
        lookupKV o kk = some (Value.str vv)) ∧
    (methodExpander k = none → exoticTruthyKeys.contains k = false →
      (∀ e' ∈ rest, k ∉ entryWrites e') →
      build (Value.obj ((k, Value.str v) :: rest)) = Value.obj o →
      lookupKV o k = some (Value.str v)) := by
  refine ⟨methodExpander_isSome_iff k, ?_, ?_⟩
  · intro e hin hme hrest hb
    have hbe := build_obj_some hb
    rw [show buildEntries ((k, Value.str v) :: rest) ([] : List (String × Value α)) =
        (match methodExpander k with
          | some e => buildEntries rest (assignEntries [] (strEntries (e v)))
          | none => if exoticTruthyKeys.contains k then none
              else buildEntries rest (setKV [] k (.str v))) from rfl, hme] at hbe
    constructor
    · rw [lookupKV_buildEntries_skip hbe hrest, lookupKV_assign_not_mem, lookupKV_nil]
      intro hmem
      rw [keysOf_strEntries] at hmem
      exact absurd ((methodExpander_keys hme v).2 k hmem)
        ((by decide : ∀ x ∈ specShorthandKeys, x ∉ expKeysOf x) k hin)
    · intro kk vv hv hkkrest
      rw [lookupKV_buildEntries_skip hbe hkkrest]
      apply lookupKV_assign_mem
      · rw [keysOf_strEntries]
        exact (methodExpander_keys hme v).1
      · rw [lookupKV_strEntries, hv]
        rfl
  · intro hme hex hrest hb
    have hbe := build_obj_some hb
    rw [show buildEntries ((k, Value.str v) :: rest) ([] : List (String × Value α)) =
        (match methodExpander k with
          | some e => buildEntries rest (assignEntries [] (strEntries (e v)))
          | none => if exoticTruthyKeys.contains k then none
              else buildEntries rest (setKV [] k (.str v))) from rfl, hme,
      if_neg (by rw [hex]; simp)] at hbe
    rw [lookupKV_buildEntries_skip hbe hrest, lookupKV_setKV]
    simp

/-- Witness for the amended C2: the shorthand key `margin` is expanded (the
key itself dropped, its expansion merged) and the plain key `color` is
copied unchanged. -/
theorem claim_C2_witness :
    @build Unit
      (Value.obj [("margin", Value.str "1px"), ("color", Value.str "blue")]) =
      Value.obj
        [("marginTop", Value.str "1px"), ("marginRight", Value.str "1px"),
         ("marginBottom", Value.str "1px"), ("marginLeft", Value.str "1px"),
         ("color", Value.str "blue")] ∧
    lookupKV
      [("marginTop", @Value.str Unit "1px"), ("marginRight", Value.str "1px"),
       ("marginBottom", Value.str "1px"), ("marginLeft", Value.str "1px"),
       ("color", Value.str "blue")] "margin" = none ∧
    lookupKV
      [("marginTop", @Value.str Unit "1px"), ("marginRight", Value.str "1px"),
       ("marginBottom", Value.str "1px"), ("marginLeft", Value.str "1px"),
       ("color", Value.str "blue")] "marginTop" = some (Value.str "1px") ∧
    lookupKV
      [("color", @Value.str Unit "blue")] "color" = some (Value.str "blue") :=
  ⟨rfl,
   ((claim_C2_amended Unit "margin" "1px" [("color", Value.str "blue")] _).2.1
     margin (by decide) rfl (by decide) rfl).1,
   ((claim_C2_amended Unit "margin" "1px" [("color", Value.str "blue")] _).2.1
     margin (by decide) rfl (by decide) rfl).2 "marginTop" "1px" (by decide) (by decide),
   (claim_C2_amended Unit "color" "blue" [] _).2.2 rfl (by decide) (by decide) rfl⟩

/-! ## Claim C7: numbers, booleans and null -/

/-- C7 is refuted as stated for null: a null-valued entry makes `build`
throw (`typeof null` is `"object"`, so the source reads `null.length`),
rather than copying the pair unchanged. -/
theorem claim_C7_counterexample :
    @build Unit (Value.obj [("a", Value.null)]) = Value.err ∧
    Value.err ≠ Value.obj [("a", @Value.null Unit)] :=
  ⟨rfl, by simp⟩

/-- C7 amended: numbers and booleans are copied unchanged without failing,
but a null value aborts the whole walk with a TypeError. -/
theorem claim_C7_amended (α : Type) (k : String) (n : Int) (b : Bool)
    (rest o rest2 o2 : List (String × Value α)) :
    ((∀ e ∈ rest, k ∉ entryWrites e) →
      build (Value.obj ((k, Value.num n) :: rest)) = Value.obj o →
      lookupKV o k = some (Value.num n)) ∧
    ((∀ e ∈ rest2, k ∉ entryWrites e) →
      build (Value.obj ((k, Value.bool b) :: rest2)) = Value.obj o2 →
      lookupKV o2 k = some (Value.bool b)) ∧
    (∀ m : List (String × Value α),
      build (Value.obj ((k, Value.null) :: m)) = Value.err) := by
  refine ⟨?_, ?_, fun m => rfl⟩
  · intro hrest hb
    have hbe := build_obj_some hb
    rw [show buildEntries ((k, Value.num n) :: rest) ([] : List (String × Value α)) =
        buildEntries rest (setKV [] k (Value.num n)) from rfl] at hbe
    rw [lookupKV_buildEntries_skip hbe hrest, lookupKV_setKV]
    simp
  · intro hrest hb
    have hbe := build_obj_some hb
    rw [show buildEntries ((k, Value.bool b) :: rest2) ([] : List (String × Value α)) =
        buildEntries rest2 (setKV [] k (Value.bool b)) from rfl] at hbe
    rw [lookupKV_buildEntries_skip hbe hrest, lookupKV_setKV]
    simp

/-- Witness for the amended C7: a number and a boolean are copied unchanged,
and a null value fails. -/
theorem claim_C7_witness :
    lookupKV [("a", @Value.num Unit 5)] "a" = some (Value.num 5) ∧
    lookupKV [("b", @Value.bool Unit true)] "b" = some (Value.bool true) ∧
    @build Unit (Value.obj [("a", Value.null)]) = Value.err :=
  ⟨(claim_C7_amended Unit "a" 5 true [] _ [] []).1 (by decide) rfl,
   (claim_C7_amended Unit "b" 5 true [] [] [] _).2.1 (by decide) rfl,
   (claim_C7_amended Unit "a" 5 true [] [] [] []).2.2 []⟩

/-! ## Claim C8: callable style values -/

/-- C8: a callable value stored under a key is replaced by a wrapper; the
wrapper, invoked with any arguments, returns exactly `build` of the original
callable's result on those arguments.  In the model the wrapping is
structural — `build` stores the unevaluated function
`fun args => build (f args)` and is itself defined without any means of
invoking `f`, so wrapping never executes the wrapped callable. -/
theorem claim_C8 (α : Type) (k : String) (f : List α → Value α)
    (rest o : List (String × Value α)) :
    (∀ e ∈ rest, k ∉ entryWrites e) →
    build (Value.obj ((k, Value.fn f) :: rest)) = Value.obj o →
    ∃ g, lookupKV o k = some (Value.fn g) ∧ ∀ args, g args = build (f args) := by
  intro hrest hb
  have hbe := build_obj_some hb
  rw [show buildEntries ((k, Value.fn f) :: rest) ([] : List (String × Value α)) =
      buildEntries rest (setKV [] k (Value.fn (fun args => build (f args)))) from rfl] at hbe
  refine ⟨fun args => build (f args), ?_, fun args => rfl⟩
  rw [lookupKV_buildEntries_skip hbe hrest, lookupKV_setKV]
  simp

/-- Witness for C8 at a concrete callable. -/
theorem claim_C8_witness :
    ∃ g, lookupKV
        [("cb", Value.fn (fun args => build ((fun _ : List Unit => Value.bool true) args)))]
        "cb" = some (Value.fn g) ∧
      ∀ args, g args = build ((fun _ : List Unit => Value.bool true) args) :=
  claim_C8 Unit "cb" (fun _ => Value.bool true) [] _ (by simp) rfl

/-! ## Claim C6: shape mirroring -/

theorem walkList_some {α : Type} {l l' : List (Value α)} (h : walkList l = some l') :
    l'.length = l.length ∧ ∀ i, l'.getD i Value.err = walkElem (l.getD i Value.err) := by
  induction l generalizing l' with
  | nil =>
    rw [show walkList ([] : List (Value α)) = some [] from rfl] at h
    injection h with h'
    subst h'
    exact ⟨rfl, fun i => rfl⟩
  | cons v vs ih =>
    rw [walkList] at h
    rcases hrec : walkList vs with _ | ws
    · cases hw : walkElem v <;> rw [hw, hrec] at h <;> cases h
    · cases hw : walkElem v <;> rw [hw, hrec] at h
      case err => cases h
      all_goals
        cases h
        refine ⟨by simp [(ih hrec).1], fun i => ?_⟩
        cases i with
        | zero => simpa using hw.symm
        | succ j => simpa using (ih hrec).2 j

/-- C6 is refuted as stated: `build` of a sequence containing a string is
not element-wise `build` — the loop copies string elements unchanged, while
`build` applied directly to a string explodes it into an array of its
characters. -/
theorem claim_C6_counterexample :
    @build Unit (Value.arr [Value.str "ab"]) ≠
      Value.arr (([Value.str "ab"] : List (Value Unit)).map build) := by
  intro h
  have h2 := congrArg (fun x => match x with
    | Value.arr (Value.str _ :: _) => (0 : Nat)
    | Value.arr (Value.arr _ :: _) => 1
    | _ => 2) h
  exact absurd h2 (by decide)

/-- C6 amended: `build` on an ordered sequence returns a sequence of equal
length whose i-th element is the element walk of the input's i-th element;
the element walk agrees with `build` on mapping elements but is the identity
on string elements; `build` on a mapping returns a mapping unless the walk
throws. -/
theorem claim_C6_amended (α : Type) :
    (∀ l : List (Value α),
      build (Value.arr l) = Value.err ∨
      ∃ l', build (Value.arr l) = Value.arr l' ∧ l'.length = l.length ∧
        ∀ i, l'.getD i Value.err = walkElem (l.getD i Value.err)) ∧
    (∀ m : List (String × Value α), walkElem (Value.obj m) = build (Value.obj m)) ∧
    (∀ s : String, walkElem (@Value.str α s) = Value.str s) ∧
    (∀ m : List (String × Value α),
      build (Value.obj m) = Value.err ∨ ∃ o, build (Value.obj m) = Value.obj o) := by
  refine ⟨?_, fun m => rfl, fun s => rfl, ?_⟩
  · intro l
    cases hwl : walkList l with
    | none =>
      left
      rw [show build (Value.arr l) =
          (match walkList l with
            | some l' => Value.arr l'
            | none => Value.err) from rfl, hwl]
    | some l' =>
      right
      refine ⟨l', ?_, walkList_some hwl⟩
      rw [show build (Value.arr l) =
          (match walkList l with
            | some l' => Value.arr l'
            | none => Value.err) from rfl, hwl]
  · intro m
    cases hbe : buildEntries m ([] : List (String × Value α)) with
    | none =>
      left
      rw [show build (Value.obj m) =
          (match buildEntries m [] with
            | some o => Value.obj o
            | none => Value.err) from rfl, hbe]
    | some o =>
      right
      refine ⟨o, ?_⟩
      rw [show build (Value.obj m) =
          (match buildEntries m [] with
            | some o => Value.obj o
            | none => Value.err) from rfl, hbe]

/-! ## Idempotence of the walk -/

theorem buildEntries_cons_str {α : Type} (k1 s : String) (rest acc : List (String × Value α)) :
    buildEntries ((k1, Value.str s) :: rest) acc =
      match methodExpander k1 with
      | some e => buildEntries rest (assignEntries acc (strEntries (e s)))
      | none => if exoticTruthyKeys.contains k1 then none
          else buildEntries rest (setKV acc k1 (.str s)) := rfl

theorem build_arr_eq {α : Type} (l : List (Value α)) :
    build (Value.arr l) =
      match walkList l with
      | some l' => Value.arr l'
      | none => Value.err := rfl

theorem build_obj_eq {α : Type} (m : List (String × Value α)) :
    build (Value.obj m) =
      match buildEntries m [] with
      | some o => Value.obj o
      | none => Value.err := rfl

theorem walkElem_arr_eq {α : Type} (l : List (Value α)) :
    walkElem (Value.arr l) =
      match buildList l with
      | some l' => Value.arr l'
      | none => Value.err := rfl

theorem walkElem_obj_eq {α : Type} (m : List (String × Value α)) :
    walkElem (Value.obj m) =
      match buildEntries m [] with
      | some o => Value.obj o
      | none => Value.err := rfl

theorem walkElem_not_str {α : Type} {v : Value α} (hns : ∀ s, v ≠ Value.str s) :
    ∀ s, walkElem v ≠ Value.str s := by
  cases v with
  | str s => exact absurd rfl (hns s)
  | num n => intro s h; cases h
  | bool b => intro s h; cases h
  | null => intro s h; cases h
  | err => intro s h; cases h
  | fn f => intro s h; cases h
  | arr l =>
    intro s h
    rw [walkElem_arr_eq] at h
    rcases hbl : buildList l with _ | l' <;> rw [hbl] at h <;> cases h
  | obj m =>
    intro s h
    rw [walkElem_obj_eq] at h
    rcases hbe : buildEntries m ([] : List (String × Value α)) with _ | o <;>
      rw [hbe] at h <;> cases h

theorem walkList_fix {α : Type} {l : List (Value α)}
    (h : ∀ w ∈ l, walkElem w = w ∧ w ≠ Value.err) : walkList l = some l := by
  induction l with
  | nil => rfl
  | cons v vs ih =>
    obtain ⟨hw, hne⟩ := h v (List.mem_cons_self _ _)
    have hrec := ih (fun w hw' => h w (List.mem_cons_of_mem _ hw'))
    rw [walkList, hw, hrec]
    cases v
    case err => exact absurd rfl hne
    all_goals rfl

theorem buildList_fix {α : Type} {l : List (Value α)}
    (h : ∀ w ∈ l, build w = w ∧ w ≠ Value.err) : buildList l = some l := by
  induction l with
  | nil => rfl
  | cons v vs ih =>
    obtain ⟨hw, hne⟩ := h v (List.mem_cons_self _ _)
    have hrec := ih (fun w hw' => h w (List.mem_cons_of_mem _ hw'))
    rw [buildList, hw, hrec]
    cases v
    case err => exact absurd rfl hne
    all_goals rfl

theorem walkList_elems {α : Type} {l l' : List (Value α)} (h : walkList l = some l') :
    ∀ w ∈ l', (∃ v ∈ l, w = walkElem v) ∧ w ≠ Value.err := by
  induction l generalizing l' with
  | nil =>
    rw [show walkList ([] : List (Value α)) = some [] from rfl] at h
    injection h with h'
    subst h'
    intro w hw
    cases hw
  | cons v vs ih =>
    rw [walkList] at h
    rcases hrec : walkList vs with _ | ws
    · cases hw : walkElem v <;> rw [hw, hrec] at h <;> cases h
    · cases hw : walkElem v <;> rw [hw, hrec] at h
      case err => cases h
      all_goals
        cases h
        intro w hw'
        rcases List.mem_cons.mp hw' with rfl | hmem
        · exact ⟨⟨v, List.mem_cons_self _ _, hw.symm⟩, by intro hc; cases hc⟩
        · obtain ⟨⟨v0, hv0, he⟩, hne⟩ := ih hrec w hmem
          exact ⟨⟨v0, List.mem_cons_of_mem _ hv0, he⟩, hne⟩

theorem buildList_elems {α : Type} {l l' : List (Value α)} (h : buildList l = some l') :
    ∀ w ∈ l', (∃ v ∈ l, w = build v) ∧ w ≠ Value.err := by
  induction l generalizing l' with
  | nil =>
    rw [show buildList ([] : List (Value α)) = some [] from rfl] at h
    injection h with h'
    subst h'
    intro w hw
    cases hw
  | cons v vs ih =>
    rw [buildList] at h
    rcases hrec : buildList vs with _ | ws
    · cases hw : build v <;> rw [hw, hrec] at h <;> cases h
    · cases hw : build v <;> rw [hw, hrec] at h
      case err => cases h
      all_goals
        cases h
        intro w hw'
        rcases List.mem_cons.mp hw' with rfl | hmem
        · exact ⟨⟨v, List.mem_cons_self _ _, hw.symm⟩, by intro hc; cases hc⟩
        · obtain ⟨⟨v0, hv0, he⟩, hne⟩ := ih hrec w hmem
          exact ⟨⟨v0, List.mem_cons_of_mem _ hv0, he⟩, hne⟩

theorem strChars_walk {α : Type} (s : String) :
    walkList (@strChars α s) = some (strChars s) := by
  apply walkList_fix
  intro w hw
  rw [strChars] at hw
  rcases List.mem_map.mp hw with ⟨c, _, rfl⟩
  exact ⟨rfl, by intro h; cases h⟩

theorem mem_assignEntries {β : Type} {acc es : List (String × β)} {e : String × β}
    (h : e ∈ assignEntries acc es) : e ∈ acc ∨ e ∈ es := by
  induction es generalizing acc with
  | nil => exact Or.inl h
  | cons p rest ih =>
    rw [assignEntries_cons] at h
    rcases ih h with h' | h'
    · rcases mem_setKV h' with h'' | h''
      · exact Or.inl h''
      · right
        rw [h'', Prod.mk.eta]
        exact List.mem_cons_self _ _
    · right
      exact List.mem_cons_of_mem _ h'

theorem nodup_keysOf_assign {β : Type} {acc es : List (String × β)}
    (h : (keysOf acc).Nodup) : (keysOf (assignEntries acc es)).Nodup := by
  induction es generalizing acc with
  | nil => exact h
  | cons p rest ih =>
    rw [assignEntries_cons]
    exact ih (nodup_keysOf_setKV _ h)

/-- No key an expander can write is itself truthy on `this`: expansion keys
are plain longhand keys. -/
theorem expKeys_plain {k : String} {e : String → List (String × String)}
    (h : methodExpander k = some e) :
    ∀ kk ∈ expKeysOf k, methodExpander kk = none ∧ exoticTruthyKeys.contains kk = false := by
  unfold methodExpander at h
  split at h
  · intro kk hkk
    rcases (by simpa [expKeysOf] using hkk :
      kk = "marginTop" ∨ kk = "marginRight" ∨ kk = "marginBottom" ∨ kk = "marginLeft") with
      rfl | rfl | rfl | rfl <;> exact ⟨rfl, by decide⟩
  · intro kk hkk
    rcases (by simpa [expKeysOf] using hkk :
      kk = "paddingTop" ∨ kk = "paddingRight" ∨ kk = "paddingBottom" ∨ kk = "paddingLeft") with
      rfl | rfl | rfl | rfl <;> exact ⟨rfl, by decide⟩
  · intro kk hkk
    rcases (by simpa [expKeysOf] using hkk :
      kk = "borderTopLeftRadius" ∨ kk = "borderTopRightRadius" ∨
      kk = "borderBottomRightRadius" ∨ kk = "borderBottomLeftRadius") with
      rfl | rfl | rfl | rfl <;> exact ⟨rfl, by decide⟩
  · intro kk hkk
    rcases (by simpa [expKeysOf] using hkk :
      kk = "borderTopStyle" ∨ kk = "borderRightStyle" ∨
      kk = "borderBottomStyle" ∨ kk = "borderLeftStyle") with
      rfl | rfl | rfl | rfl <;> exact ⟨rfl, by decide⟩
  · intro kk hkk
    rcases (by simpa [expKeysOf] using hkk :
      kk = "borderTopColor" ∨ kk = "borderRightColor" ∨
      kk = "borderBottomColor" ∨ kk = "borderLeftColor") with
      rfl | rfl | rfl | rfl <;> exact ⟨rfl, by decide⟩
  · intro kk hkk
    rcases (by simpa [expKeysOf] using hkk :
      kk = "borderTopWidth" ∨ kk = "borderRightWidth" ∨
      kk = "borderBottomWidth" ∨ kk = "borderLeftWidth") with
      rfl | rfl | rfl | rfl <;> exact ⟨rfl, by decide⟩
  · intro kk hkk
    rcases (by simpa [expKeysOf] using hkk :
      kk = "borderLeftWidth" ∨ kk = "borderLeftStyle" ∨ kk = "borderLeftColor") with
      rfl | rfl | rfl <;> exact ⟨rfl, by decide⟩
  · intro kk hkk
    rcases (by simpa [expKeysOf] using hkk :
      kk = "borderRightWidth" ∨ kk = "borderRightStyle" ∨ kk = "borderRightColor") with
      rfl | rfl | rfl <;> exact ⟨rfl, by decide⟩
  · intro kk hkk
    rcases (by simpa [expKeysOf] using hkk :
      kk = "borderTopWidth" ∨ kk = "borderTopStyle" ∨ kk = "borderTopColor") with
      rfl | rfl | rfl <;> exact ⟨rfl, by decide⟩
  · intro kk hkk
    rcases (by simpa [expKeysOf] using hkk :
      kk = "borderBottomWidth" ∨ kk = "borderBottomStyle" ∨ kk = "borderBottomColor") with
      rfl | rfl | rfl <;> exact ⟨rfl, by decide⟩
  · intro kk hkk
    rcases (by simpa [expKeysOf] using hkk :
      kk = "borderLeftWidth" ∨ kk = "borderLeftStyle" ∨ kk = "borderLeftColor" ∨
      kk = "borderRightWidth" ∨ kk = "borderRightStyle" ∨ kk = "borderRightColor" ∨
      kk = "borderTopWidth" ∨ kk = "borderTopStyle" ∨ kk = "borderTopColor" ∨
      kk = "borderBottomWidth" ∨ kk = "borderBottomStyle" ∨ kk = "borderBottomColor") with
      rfl | rfl | rfl | rfl | rfl | rfl | rfl | rfl | rfl | rfl | rfl | rfl <;>
      exact ⟨rfl, by decide⟩
  · intro kk hkk
    rcases (by simpa [expKeysOf] using hkk :
      kk = "borderundefinedWidth" ∨ kk = "borderundefinedStyle" ∨
      kk = "borderundefinedColor") with
      rfl | rfl | rfl <;> exact ⟨rfl, by decide⟩
  · exact absurd h (by simp)

theorem stable_setKV {α : Type} {acc : List (String × Value α)} {k1 : String} {w : Value α}
    (hsta : ∀ e ∈ acc, stableEntry e) (hw : stableEntry (k1, w)) :
    ∀ e ∈ setKV acc k1 w, stableEntry e := by
  intro e he
  rcases mem_setKV he with h | h
  · exact hsta e h
  · rw [h]
    exact hw

theorem stable_assign {α : Type} {acc es : List (String × Value α)}
    (hsta : ∀ e ∈ acc, stableEntry e) (hes : ∀ e ∈ es, stableEntry e) :
    ∀ e ∈ assignEntries acc es, stableEntry e := by
  intro e he
  rcases mem_assignEntries he with h | h
  · exact hsta e h
  · exact hes e h

theorem stable_strEntries {α : Type} {k1 : String} {e : String → List (String × String)}
    (hme : methodExpander k1 = some e) (s : String) :
    ∀ p ∈ @strEntries α (e s), stableEntry p := by
  intro p hp
  rw [strEntries] at hp
  rcases List.mem_map.mp hp with ⟨q, hq, rfl⟩
  have hkk : q.1 ∈ expKeysOf k1 :=
    (methodExpander_keys hme s).2 q.1 (keysOf_mem_iff.mpr ⟨q, hq, rfl⟩)
  obtain ⟨hm, hx⟩ := expKeys_plain hme q.1 hkk
  exact ⟨fun s' _ => ⟨hm, hx⟩, rfl, by intro h; cases h⟩

/-- The key loop reproduces a list of stable entries verbatim, appended to
the accumulator. -/
theorem buildEntries_stable {α : Type} {o : List (String × Value α)} :
    ∀ {acc : List (String × Value α)},
    (∀ e ∈ o, stableEntry e) → (keysOf o).Nodup →
    (∀ kk ∈ keysOf o, kk ∉ keysOf acc) →
    buildEntries o acc = some (acc ++ o) := by
  induction o with
  | nil =>
    intro acc _ _ _
    simp [buildEntries_nil]
  | cons p rest ih =>
    intro acc hst hnd hdisj
    obtain ⟨k1, v1⟩ := p
    obtain ⟨hstr, hwalk, hne⟩ := hst (k1, v1) (List.mem_cons_self _ _)
    have hk1acc : k1 ∉ keysOf acc :=
      hdisj k1 (by rw [keysOf_cons]; exact List.mem_cons_self _ _)
    rw [keysOf_cons, List.nodup_cons] at hnd
    have hstep : buildEntries ((k1, v1) :: rest) acc = buildEntries rest (setKV acc k1 v1) := by
      cases v1 with
      | str s =>
        obtain ⟨hme, hex⟩ := hstr s rfl
        rw [buildEntries_cons_str, hme, if_neg (by rw [hex]; simp)]
      | err => exact absurd rfl hne
      | null => simp [walkElem] at hwalk
      | num n => rfl
      | bool b => rfl
      | fn f =>
        rw [show buildEntries ((k1, Value.fn f) :: rest) acc =
            buildEntries rest (setKV acc k1 (walkElem (Value.fn f))) from rfl, hwalk]
      | arr l =>
        rw [show buildEntries ((k1, Value.arr l) :: rest) acc =
            (match walkElem (Value.arr l) with
              | .err => none
              | w => buildEntries rest (setKV acc k1 w)) from rfl, hwalk]
      | obj mm =>
        rw [show buildEntries ((k1, Value.obj mm) :: rest) acc =
            (match walkElem (Value.obj mm) with
              | .err => none
              | w => buildEntries rest (setKV acc k1 w)) from rfl, hwalk]
    rw [hstep, setKV_of_not_mem _ hk1acc]
    have hrest := @ih (acc ++ [(k1, v1)])
      (fun e he => hst e (List.mem_cons_of_mem _ he)) hnd.2 ?hd
    case hd =>
      intro kk hkk
      rw [keysOf_append]
      intro hmem
      rcases List.mem_append.mp hmem with h' | h'
      · exact hdisj kk (by rw [keysOf_cons]; exact List.mem_cons_of_mem _ hkk) h'
      · have : kk = k1 := by simpa [keysOf] using h'
        exact hnd.1 (this ▸ hkk)
    rw [hrest]
    simp

/-- Every output of the key loop from a stable accumulator is a stable,
duplicate-free entry list. -/
theorem buildEntries_some_stable {α : Type} {m : List (String × Value α)} :
    ∀ {acc o : List (String × Value α)},
    (∀ e ∈ m, walkElem (walkElem e.2) = walkElem e.2) →
    buildEntries m acc = some o →
    (∀ e ∈ acc, stableEntry e) → (keysOf acc).Nodup →
    (∀ e ∈ o, stableEntry e) ∧ (keysOf o).Nodup := by
  induction m with
  | nil =>
    intro acc o _ hb hsta hnd
    rw [buildEntries_nil, Option.some.injEq] at hb
    subst hb
    exact ⟨hsta, hnd⟩
  | cons p rest ih =>
    intro acc o hww hb hsta hnd
    obtain ⟨k1, v1⟩ := p
    have hww1 : walkElem (walkElem v1) = walkElem v1 := hww (k1, v1) (List.mem_cons_self _ _)
    have hwwrest : ∀ e ∈ rest, walkElem (walkElem e.2) = walkElem e.2 :=
      fun e he => hww e (List.mem_cons_of_mem _ he)
    by_cases hstr : ∃ s, v1 = Value.str s
    · obtain ⟨s, rfl⟩ := hstr
      cases hme : methodExpander k1 with
      | some ex =>
        rw [buildEntries_cons_str, hme] at hb
        exact ih hwwrest hb (stable_assign hsta (stable_strEntries hme s))
          (nodup_keysOf_assign hnd)
      | none =>
        rw [buildEntries_cons_str, hme] at hb
        by_cases hex : exoticTruthyKeys.contains k1 = true
        · rw [if_pos hex] at hb
          cases hb
        · rw [if_neg hex] at hb
          refine ih hwwrest hb (stable_setKV hsta ?_) (nodup_keysOf_setKV _ hnd)
          refine ⟨fun s' _ => ⟨hme, ?_⟩, rfl, by intro h; cases h⟩
          revert hex
          cases exoticTruthyKeys.contains k1 <;> simp
    · have hns : ∀ s, v1 ≠ Value.str s := fun s hh => hstr ⟨s, hh⟩
      rw [buildEntries_cons_not_str _ _ _ hns] at hb
      cases hw : walkElem v1 with
      | err =>
        rw [hw] at hb
        cases hb
      | str s2 => exact absurd hw (walkElem_not_str hns s2)
      | num n =>
        rw [hw] at hb
        rw [hw] at hww1
        exact ih hwwrest hb (stable_setKV hsta
          ⟨fun s' hs' => (by cases hs'), hww1, (by intro hh; cases hh)⟩)
          (nodup_keysOf_setKV _ hnd)
      | bool b =>
        rw [hw] at hb
        rw [hw] at hww1
        exact ih hwwrest hb (stable_setKV hsta
          ⟨fun s' hs' => (by cases hs'), hww1, (by intro hh; cases hh)⟩)
          (nodup_keysOf_setKV _ hnd)
      | null =>
        rw [hw] at hb
        rw [hw] at hww1
        exact ih hwwrest hb (stable_setKV hsta
          ⟨fun s' hs' => (by cases hs'), hww1, (by intro hh; cases hh)⟩)
          (nodup_keysOf_setKV _ hnd)
      | fn f =>
        rw [hw] at hb
        rw [hw] at hww1
        exact ih hwwrest hb (stable_setKV hsta
          ⟨fun s' hs' => (by cases hs'), hww1, (by intro hh; cases hh)⟩)
          (nodup_keysOf_setKV _ hnd)
      | arr l =>
        rw [hw] at hb
        rw [hw] at hww1
        exact ih hwwrest hb (stable_setKV hsta
          ⟨fun s' hs' => (by cases hs'), hww1, (by intro hh; cases hh)⟩)
          (nodup_keysOf_setKV _ hnd)
      | obj mm =>
        rw [hw] at hb
        rw [hw] at hww1
        exact ih hwwrest hb (stable_setKV hsta
          ⟨fun s' hs' => (by cases hs'), hww1, (by intro hh; cases hh)⟩)
          (nodup_keysOf_setKV _ hnd)

mutual

/-- The walk is idempotent: `build` of a `build` output is that output. -/
theorem build_build {α : Type} (v : Value α) : build (build v) = build v := by
  cases v with
  | null => rfl
  | err => rfl
  | num n => rfl
  | bool b => rfl
  | fn f => rfl
  | str s =>
    rw [show build (Value.str s) = Value.arr (strChars s) from rfl,
      build_arr_eq, strChars_walk s]
  | arr l =>
    cases hwl : walkList l with
    | none =>
      rw [build_arr_eq, hwl]
      rfl
    | some l' =>
      rw [build_arr_eq, hwl]
      have helems := walkList_elems hwl
      have hfix : ∀ w ∈ l', walkElem w = w ∧ w ≠ Value.err := by
        intro w hw
        obtain ⟨⟨v0, hv0, rfl⟩, hne⟩ := helems w hw
        exact ⟨(build_build_list l v0 hv0).2, hne⟩
      rw [build_arr_eq, walkList_fix hfix]
  | obj m =>
    cases hbe : buildEntries m ([] : List (String × Value α)) with
    | none =>
      rw [build_obj_eq, hbe]
      rfl
    | some o =>
      rw [build_obj_eq, hbe]
      obtain ⟨hst, hnd⟩ := buildEntries_some_stable (walk_walk_entries m) hbe
        (by intro e he; cases he) (by simp [keysOf])
      rw [build_obj_eq, buildEntries_stable hst hnd (by simp [keysOf])]
      simp

/-- The element walk is idempotent. -/
theorem walk_walk {α : Type} (v : Value α) : walkElem (walkElem v) = walkElem v := by
  cases v with
  | null => rfl
  | err => rfl
  | num n => rfl
  | bool b => rfl
  | str s => rfl
  | fn f => exact congrArg Value.fn (funext fun args => build_build (f args))
  | arr l =>
    cases hbl : buildList l with
    | none =>
      rw [walkElem_arr_eq, hbl]
      rfl
    | some l' =>
      rw [walkElem_arr_eq, hbl]
      have helems := buildList_elems hbl
      have hfix : ∀ w ∈ l', build w = w ∧ w ≠ Value.err := by
        intro w hw
        obtain ⟨⟨v0, hv0, rfl⟩, hne⟩ := helems w hw
        exact ⟨(build_build_list l v0 hv0).1, hne⟩
      rw [walkElem_arr_eq, buildList_fix hfix]
  | obj m =>
    cases hbe : buildEntries m ([] : List (String × Value α)) with
    | none =>
      rw [walkElem_obj_eq, hbe]
      rfl
    | some o =>
      rw [walkElem_obj_eq, hbe]
      obtain ⟨hst, hnd⟩ := buildEntries_some_stable (walk_walk_entries m) hbe
        (by intro e he; cases he) (by simp [keysOf])
      rw [walkElem_obj_eq, buildEntries_stable hst hnd (by simp [keysOf])]
      simp

theorem build_build_list {α : Type} (l : List (Value α)) :
    ∀ v ∈ l, (build (build v) = build v) ∧ (walkElem (walkElem v) = walkElem v) := by
  match l with
  | [] =>
    intro v hv
    cases hv
  | x :: xs =>
    intro v hv
    rcases List.mem_cons.mp hv with h | h
    · rw [h]
      exact ⟨build_build x, walk_walk x⟩
    · exact build_build_list xs v h

theorem walk_walk_entries {α : Type} (m : List (String × Value α)) :
    ∀ e ∈ m, walkElem (walkElem e.2) = walkElem e.2 := by
  match m with
  | [] =>
    intro e he
    cases he
  | (k1, v1) :: rest =>
    intro e he
    rcases List.mem_cons.mp he with h | h
    · rw [h]
      exact walk_walk v1
    · exact walk_walk_entries rest e h

end

/-! ## Claim C9: idempotence -/

/-- C9 is refuted in its first half: a mapping with no shorthand key holding
a string (an "already-expanded" mapping in the claim's sense) is not always
returned unchanged — a nested array of strings is rewritten, because `build`
maps itself over nested array elements and explodes strings into character
arrays. -/
theorem claim_C9_counterexample :
    (("x" ∈ specShorthandKeys) → False) ∧
    @build Unit (Value.obj [("x", Value.arr [Value.str "ab"])]) ≠
      Value.obj [("x", Value.arr [Value.str "ab"])] := by
  refine ⟨by decide, ?_⟩
  intro h
  have h2 := congrArg (fun x => match x with
    | Value.obj ((_, Value.arr (Value.str _ :: _)) :: _) => (0 : Nat)
    | Value.obj ((_, Value.arr (Value.arr _ :: _)) :: _) => 1
    | _ => 2) h
  exact absurd h2 (by decide)

/-- C9 amended: re-running `build` on the output of `build` returns that
output unchanged — `build (build m) = build m` for every mapping `m` (indeed
for every style value); merely lacking shorthand string keys does not make a
mapping a fixpoint, since nested arrays of strings are still rewritten. -/
theorem claim_C9_amended (α : Type) (m : List (String × Value α)) :
    build (build (Value.obj m)) = build (Value.obj m) :=
  build_build (Value.obj m)

end StyleBuilder
